import Mathlib

/-!
Shallow embedding of the grid-to-event pipeline of
src/schedule/parser/academic.py (one-zero-eight/InNoHassle-Parsers).

Strings are modelled as List Char (and, where only whole-string equality
matters, as String).  The Python regular expressions used by the parser are
end-anchored and small, so each re.sub / re.search call is modelled by a
dedicated recursive function with Python semantics:
the class backslash-s is modelled by ASCII whitespace, the dot matches any
character except the newline, and the dollar anchor matches at the end of the
string or just before a final newline.  Fallible Python code (exceptions)
returns Except; the process-wide Subject registry is threaded explicitly.
-/

/-- ASCII whitespace, modelling the Python regex whitespace class on the
inputs of this parser. -/
def pySpace (c : Char) : Bool :=
  c == ' ' || c == '\t' || c == '\n' || c == '\r' || c == '\x0b' || c == '\x0c'

/-- No character of the list is a newline (the regex dot cannot cross one). -/
def noNewline (l : List Char) : Bool := l.all (fun c => c != '\n')

/-- Every character of the list is whitespace. -/
def allSpace (l : List Char) : Bool := l.all pySpace

/-- After having read a whitespace run and an opening parenthesis, decide
whether the remaining text matches the rest of the first pattern of
Subject.from_str, the regex backslash-s+ ( .* ) backslash-s* dollar:
the last non-whitespace character must be a closing parenthesis and the
material before it (the group of the dot-star) must be newline-free. -/
def p1tail (l : List Char) : Bool :=
  match l.reverse.dropWhile pySpace with
  | ')' :: mrev => noNewline mrev
  | _ => false

/-- Scan the whitespace run of the first pattern: consume whitespace until an
opening parenthesis is found, then check the tail. -/
def p1AfterWs : List Char → Bool
  | [] => false
  | c :: rest => if c == '(' then p1tail rest else pySpace c && p1AfterWs rest

/-- Whether the whole list matches the first from_str pattern (a match of the
end-anchored regex starting exactly at the head of the list). -/
def matchesP1 : List Char → Bool
  | [] => false
  | c :: rest => pySpace c && p1AfterWs rest

/-- First re.sub of Subject.from_str: remove the leftmost (hence longest)
suffix matching whitespace+ ( anything ) whitespace* end. -/
def sub1 : List Char → List Char
  | [] => []
  | c :: rest => if matchesP1 (c :: rest) then [] else c :: sub1 rest

/-- After having read a whitespace run and a hyphen, decide whether the
remaining text matches the rest of the second from_str pattern,
backslash-s+ - .* dollar: the rest must be newline-free, or newline-free up
to a single final newline (the dollar matches just before it). -/
def p2tail (l : List Char) : Bool :=
  noNewline l ||
    (match l.getLast? with
     | some c => c == '\n' && noNewline l.dropLast
     | none => false)

/-- Scan the whitespace run of the second pattern: consume whitespace until a
hyphen is found, then check the tail. -/
def p2AfterWs : List Char → Bool
  | [] => false
  | c :: rest => if c == '-' then p2tail rest else pySpace c && p2AfterWs rest

/-- Whether a match of the second from_str pattern starts exactly at the head
of the list. -/
def matchesP2 : List Char → Bool
  | [] => false
  | c :: rest => pySpace c && p2AfterWs rest

/-- Second re.sub of Subject.from_str: remove from the leftmost match of
whitespace+ - .* dollar to the end; when the string ends with a newline the
dollar stops just before it, so that final newline survives. -/
def sub2 : List Char → List Char
  | [] => []
  | c :: rest =>
    if matchesP2 (c :: rest) then
      (if (c :: rest).getLast? == some '\n' then ['\n'] else [])
    else c :: sub2 rest

/-- Third re.sub of Subject.from_str: remove the maximal all-whitespace
suffix (the regex whitespace+ dollar). -/
def sub3 : List Char → List Char
  | [] => []
  | c :: rest => if allSpace (c :: rest) then [] else c :: sub3 rest

/-- The complete name normalization performed by Subject.from_str: the three
re.sub passes in program order. -/
def normalizeName (l : List Char) : List Char := sub3 (sub2 (sub1 l))

/-- The Subject model: pydantic model with a name and an is_ignored flag. -/
structure Subject where
  name : List Char
  is_ignored : Bool := false
deriving DecidableEq, Repr

/-- The class-level instance table of Subject, keyed by normalized name, in
insertion order.  Two from_str calls return the identical instance exactly
when they hit the same key. -/
abbrev Registry := List (List Char)

/-- Subject.from_str: normalize the raw title, then deduplicate through the
registry; returns the canonical subject and the updated registry. -/
def Subject.from_str (reg : Registry) (s : List Char) : Subject × Registry :=
  let n := normalizeName s
  (⟨n, false⟩, if reg.contains n then reg else reg ++ [n])

/-- A time of day, as produced by datetime.strptime with format H colon M. -/
structure Time where
  hour : Nat
  minute : Nat
deriving DecidableEq, Repr

/-- A calendar date (datetime.date / the date part of datetime.datetime). -/
structure Date where
  year : Nat
  month : Nat
  day : Nat
deriving DecidableEq, Repr

/-- Gregorian leap-year rule, as implemented by the datetime module. -/
def isLeap (y : Nat) : Bool := y % 4 == 0 && (y % 100 != 0 || y % 400 == 0)

/-- Number of days of a month, as checked by the datetime constructor. -/
def daysInMonth (y m : Nat) : Nat :=
  if m == 2 then (if isLeap y then 29 else 28)
  else if m == 4 || m == 6 || m == 9 || m == 11 then 30
  else 31

/-- The datetime.datetime constructor: none models the ValueError raised on
an out-of-range month or day. -/
def mkDatetime (y m d : Nat) : Option Date :=
  if 1 ≤ m && m ≤ 12 && 1 ≤ d && d ≤ daysInMonth y m then some ⟨y, m, d⟩
  else none

/-- Python str.strip with no argument: drop leading and trailing whitespace. -/
def pyStrip (l : List Char) : List Char :=
  ((l.dropWhile pySpace).reverse.dropWhile pySpace).reverse

/-- Index, counted from the head, of the last closing parenthesis of a list,
or none.  Used for the greedy dot-star of the parenthesis regexes. -/
def lastCloseParen (l : List Char) : Option Nat :=
  match l.reverse.findIdx? (fun c => c == ')') with
  | some i => some (l.length - 1 - i)
  | none => none

/-- One attempt of the regex ( .+ ) at an opening parenthesis: the greedy
group runs to the last closing parenthesis of the newline-free segment and
must be non-empty. -/
def parenGroupAt (rest : List Char) : Option (List Char) :=
  let seg := rest.takeWhile (fun c => c != '\n')
  match lastCloseParen seg with
  | some j => if 1 ≤ j then some (seg.take j) else none
  | none => none

/-- re.search of ( .+ ) : leftmost opening parenthesis at which the greedy
attempt succeeds; returns the group.  Used for the event-type tag. -/
def parenGroup : List Char → Option (List Char)
  | [] => none
  | c :: rest =>
    if c == '(' then
      match parenGroupAt rest with
      | some g => some g
      | none => parenGroup rest
    else parenGroup rest

/-- Characters of the group of the event-type regex after
re.sub backslash-s+ to the empty string: every whitespace char is removed. -/
def stripAllWs (l : List Char) : List Char := l.filter (fun c => !(pySpace c))

/-- Numeric value of a digit run (the int() conversion of a regex group). -/
def digitsVal (l : List Char) : Nat :=
  l.foldl (fun acc c => acc * 10 + (c.toNat - '0'.toNat)) 0

/-- Attempt the tail of the regex OPEN ONLY ON (d+) / (d+) CLOSE right after
its opening parenthesis: the literal text, a digit run, a slash, a digit run
and the closing parenthesis.  Returns both groups. -/
def onlyOnAt (l : List Char) : Option (Nat × Nat) :=
  match l with
  | 'O' :: 'N' :: 'L' :: 'Y' :: ' ' :: 'O' :: 'N' :: ' ' :: r1 =>
    let d1 := r1.takeWhile Char.isDigit
    if d1.isEmpty then none else
    match r1.drop d1.length with
    | '/' :: r2 =>
      let d2 := r2.takeWhile Char.isDigit
      if d2.isEmpty then none else
      match r2.drop d2.length with
      | ')' :: _ => some (digitsVal d1, digitsVal d2)
      | _ => none
    | _ => none
  | _ => none

/-- re.search of the ONLY ON pattern: leftmost match; returns the index of
the opening parenthesis (match.start) and the two numeric groups. -/
def onlyOnSearch : List Char → Option (Nat × Nat × Nat)
  | [] => none
  | c :: rest =>
    if c == '(' then
      match onlyOnAt rest with
      | some (g1, g2) => some (0, g1, g2)
      | none =>
        match onlyOnSearch rest with
        | some (i, g1, g2) => some (i + 1, g1, g2)
        | none => none
    else
      match onlyOnSearch rest with
      | some (i, g1, g2) => some (i + 1, g1, g2)
      | none => none

/-- Python str.split with a separator character: splits on every occurrence,
keeping empty parts; the result is never empty. -/
def pySplit (sep : Char) : List Char → List (List Char)
  | [] => [[]]
  | c :: rest =>
    match pySplit sep rest with
    | [] => [[c]]
    | h :: t => if c == sep then [] :: h :: t else (c :: h) :: t

/-- The language of the strptime directive percent-H: one digit, or two
digits whose value is at most 23. -/
def hourLang : List Char → Bool
  | [c] => c.isDigit
  | [c1, c2] => c1.isDigit && c2.isDigit && digitsVal [c1, c2] ≤ 23
  | _ => false

/-- The language of the strptime directive percent-M: one digit, or two
digits whose value is at most 59. -/
def minLang : List Char → Bool
  | [c] => c.isDigit
  | [c1, c2] => c1.isDigit && c2.isDigit && digitsVal [c1, c2] ≤ 59
  | _ => false

/-- datetime.strptime with format percent-H colon percent-M, returning the
parsed time of day or a ValueError. -/
def strptimeHM (l : List Char) : Except String Time :=
  match pySplit ':' l with
  | [h, m] =>
    if hourLang h && minLang m then .ok ⟨digitsVal h, digitsVal m⟩
    else .error "ValueError: time data does not match format"
  | _ => .error "ValueError: time data does not match format"

/-- The slot-label parse of get_events_for_course: timeslot.split on the
hyphen must yield exactly two parts (tuple unpacking), each parsed by
strptime. -/
def parseTimeslot (l : List Char) : Except String (Time × Time) :=
  match pySplit '-' l with
  | [a, b] =>
    match strptimeHM a with
    | .error e => .error e
    | .ok t1 =>
      match strptimeHM b with
      | .error e => .error e
      | .ok t2 => .ok (t1, t2)
  | _ => .error "ValueError: not enough values to unpack"

/-- Worker of removeParens with a structural fuel argument (the fuel starts
at the list length and dominates it, so the zero-fuel arm is unreachable);
structural recursion keeps the function kernel-reducible. -/
def removeParensGo : Nat → List Char → List Char
  | 0, l => l
  | _ + 1, [] => []
  | fuel + 1, c :: rest =>
    if c == '(' then
      match lastCloseParen (rest.takeWhile (fun x => x != '\n')) with
      | some j => removeParensGo fuel (rest.drop (j + 1))
      | none => c :: removeParensGo fuel rest
    else c :: removeParensGo fuel rest

/-- format_group_name step two: the compiled pattern OPEN .* CLOSE, applied
by sub to every non-overlapping occurrence, left to right, each greedy up to
the last closing parenthesis of its newline-free segment (a group may be
empty here). -/
def removeParens (l : List Char) : List Char := removeParensGo l.length l

/-- format_group_name: uppercase, remove every parenthesized run, strip. -/
def format_group_name (s : String) : String :=
  String.mk (pyStrip (removeParens (s.data.map Char.toUpper)))

/-- The weekly recurrence dictionary built by get_weekday_rrule. -/
structure RRule where
  freq : String
  interval : Nat
  untilDate : Date
deriving DecidableEq, Repr

/-- get_weekday_rrule: weekly, interval one, until the supplied end date. -/
def get_weekday_rrule (endDate : Date) : RRule := ⟨"WEEKLY", 1, endDate⟩

/-- The flag set of an event; only_on_specific_date is False or a datetime,
modelled as an Option. -/
structure Flags where
  only_on_specific_date : Option Date := none
deriving DecidableEq, Repr

/-- The ScheduleEvent pydantic model.  The dtstamp (a datetime.now value) is
modelled by its date part, which no claim inspects further. -/
structure ScheduleEvent where
  subject : Option Subject := none
  start_time : Option Time := none
  end_time : Option Time := none
  day : Option Date := none
  dtstamp : Option Date := none
  location : Option String := none
  instructor : Option String := none
  event_type : Option String := none
  recurrence : Option RRule := none
  flags : Flags := {}
  group : Option String := none
  course : Option String := none
deriving DecidableEq, Repr

/-- ScheduleEvent equality as defined by the dunder eq method: subject,
event type, start time, end time and group. -/
def ScheduleEvent.eqPy (a b : ScheduleEvent) : Bool :=
  a.subject == b.subject &&
  a.event_type == b.event_type &&
  a.start_time == b.start_time &&
  a.end_time == b.end_time &&
  a.group == b.group

/-- The tuple hashed by the dunder hash method; hash equality is modelled by
equality of this tuple. -/
def ScheduleEvent.hashKey (a : ScheduleEvent) :
    Option Subject × Option String × Option Time × Option Time × Option String :=
  (a.subject, a.event_type, a.start_time, a.end_time, a.group)

/-- The location branch of from_cell: when the location line carries an
ONLY ON annotation, cut the line at match.start and strip it, and build the
override datetime with month taken from the FIRST regex group and day from
the SECOND, as the source does; the datetime constructor may raise. -/
def locOnly (loc? : Option String) (year : Nat) :
    Except String (Option String × Option Date) :=
  match loc? with
  | none => .ok (none, none)
  | some loc =>
    match onlyOnSearch loc.data with
    | none => .ok (some loc, none)
    | some (i, g1, g2) =>
      match mkDatetime year g1 g2 with
      | none => .error "ValueError: month must be in 1..12"
      | some d => .ok (some (String.mk (pyStrip (loc.data.take i))), some d)

/-- ScheduleEvent.from_cell: filter out falsy (empty) lines, take the title
(next on an empty iterator raises), canonicalize the subject, read the
optional instructor and location lines, decode the ONLY ON override and the
event-type tag, and assign each field only when its value is truthy. -/
def ScheduleEvent.from_cell (e : ScheduleEvent) (reg : Registry)
    (lines : List String) (year : Nat) :
    Except String (ScheduleEvent × Registry) :=
  match lines.filter (fun s => s != "") with
  | [] => .error "StopIteration"
  | title :: rest =>
    match locOnly (rest.get? 1) year with
    | .error msg => .error msg
    | .ok (loc1, onlyOn) =>
      .ok
        ({ e with
            subject := some (Subject.from_str reg title.data).1
            instructor := match rest.get? 0 with
              | some s => if s != "" then some s else e.instructor
              | none => e.instructor
            location := match loc1 with
              | some s => if s != "" then some s else e.location
              | none => e.location
            event_type :=
              match (parenGroup title.data).map (fun g => String.mk (stripAllWs g)) with
              | some s => if s != "" then some s else e.event_type
              | none => e.event_type
            flags := match onlyOn with
              | some d => { only_on_specific_date := some d }
              | none => e.flags },
          (Subject.from_str reg title.data).2)

/-- The body of the inner loop of get_events_for_course for one cell: build
the bare event from group name and parsed slot label, then run from_cell on
the cell lines when the list is non-empty (Python truthiness of a list). -/
def buildCellEvent (reg : Registry) (timeslot : String) (name : String)
    (eventLines : List String) (year : Nat) :
    Except String (ScheduleEvent × Registry) :=
  match parseTimeslot timeslot.data with
  | .error e => .error e
  | .ok (st, en) =>
    let cellEvent : ScheduleEvent :=
      { group := some (format_group_name name), start_time := some st, end_time := some en }
    if eventLines.isEmpty then .ok (cellEvent, reg)
    else ScheduleEvent.from_cell cellEvent reg eventLines year

/-- One row of get_events_for_course: the group columns of a logical slot,
iterated in column order. -/
def eventsForCells (reg : Registry) (timeslot : String) (year : Nat) :
    List (String × List String) → Except String (List ScheduleEvent × Registry)
  | [] => .ok ([], reg)
  | (name, lines) :: rest =>
    match buildCellEvent reg timeslot name lines year with
    | .error e => .error e
    | .ok (ev, reg1) =>
      match eventsForCells reg1 timeslot year rest with
      | .error e => .error e
      | .ok (evs, reg2) => .ok (ev :: evs, reg2)

/-- get_events_for_course: iterate the refactored rows in order; each row
pairs the slot label with one cell-line list per group column. -/
def get_events_for_course (reg : Registry) (groupNames : List String)
    (year : Nat) :
    List (String × List (List String)) → Except String (List ScheduleEvent × Registry)
  | [] => .ok ([], reg)
  | (timeslot, cells) :: rest =>
    match eventsForCells reg timeslot year (groupNames.zip cells) with
    | .error e => .error e
    | .ok (evs1, reg1) =>
      match get_events_for_course reg1 groupNames year rest with
      | .error e => .error e
      | .ok (evs2, reg2) => .ok (evs1 ++ evs2, reg2)

/-- One course DataFrame after refactor_course_df: the retained group names
and the logical slot rows (label, one cell-line list per group column). -/
structure CourseDf where
  groupNames : List String
  rows : List (String × List (List String))
deriving DecidableEq, Repr

/-- The per-course body of convert_separation: build the course events, then
stamp day anchor, recurrence, course name and timestamp on every event. -/
def convertCourse (reg : Registry) (dayAnchor : Date) (rrule : RRule)
    (courseName : String) (df : CourseDf) (nowTs : Date) (year : Nat) :
    Except String (List ScheduleEvent × Registry) :=
  match get_events_for_course reg df.groupNames year df.rows with
  | .error e => .error e
  | .ok (evs, reg1) =>
    .ok (evs.map (fun ev =>
      { ev with day := some dayAnchor, recurrence := some rrule,
                course := some courseName, dtstamp := some nowTs }), reg1)

/-- The course loop of convert_separation for one day section. -/
def convertDay (reg : Registry) (dayAnchor : Date) (rrule : RRule)
    (nowTs : Date) (year : Nat) :
    List (String × CourseDf) → Except String (List ScheduleEvent × Registry)
  | [] => .ok ([], reg)
  | (courseName, df) :: rest =>
    match convertCourse reg dayAnchor rrule courseName df nowTs year with
    | .error e => .error e
    | .ok (evs1, reg1) =>
      match convertDay reg1 dayAnchor rrule nowTs year rest with
      | .error e => .error e
      | .ok (evs2, reg2) => .ok (evs1 ++ evs2, reg2)

/-- convert_separation: iterate the day sections in insertion order, the
courses of each day in insertion order, and extend the output list.  The
nearest_weekday helper lives outside the embedded sources and is passed as
the function anchorOf; the recurrence rule is built once from the last
date. -/
def convert_separation (sep : List (String × List (String × CourseDf)))
    (anchorOf : String → Date) (veryLastDate : Date) (nowTs : Date)
    (year : Nat) (reg : Registry) :
    Except String (List ScheduleEvent × Registry) :=
  match sep with
  | [] => .ok ([], reg)
  | (dayName, courses) :: rest =>
    match convertDay reg (anchorOf dayName) (get_weekday_rrule veryLastDate)
        nowTs year courses with
    | .error e => .error e
    | .ok (evs1, reg1) =>
      match convert_separation rest anchorOf veryLastDate nowTs year reg1 with
      | .error e => .error e
      | .ok (evs2, reg2) => .ok (evs1 ++ evs2, reg2)

/-- A merge rectangle of the spreadsheet API, half-open 0-indexed bounds. -/
structure Merge where
  startRowIndex : Nat
  endRowIndex : Nat
  startColumnIndex : Nat
  endColumnIndex : Nat
deriving DecidableEq, Repr

/-- Number of rows of the DataFrame (first component of df.shape). -/
def gridRows (g : List (List String)) : Nat := g.length

/-- Number of columns of the DataFrame (second component of df.shape); the
rows of a constructed DataFrame all share the length of the first one. -/
def gridCols (g : List (List String)) : Nat := (g.headD []).length

/-- df.iloc positional access to one cell; an out-of-range index raises. -/
def getCell (g : List (List String)) (i j : Nat) : Except String String :=
  match g.get? i with
  | none => .error "IndexError"
  | some row =>
    match row.get? j with
    | none => .error "IndexError"
    | some v => .ok v

/-- Slice-assign a value over the half-open column range of one row, as the
iloc slice does: positions beyond the row length are clipped away. -/
def setRow (v : String) (y0 y1 : Nat) : List String → Nat → List String
  | [], _ => []
  | c :: rest, j => (if y0 ≤ j && j < y1 then v else c) :: setRow v y0 y1 rest (j + 1)

/-- Slice-assign a value over the half-open row range, clipping as iloc. -/
def setRows (v : String) (x0 x1 y0 y1 : Nat) :
    List (List String) → Nat → List (List String)
  | [], _ => []
  | r :: rest, i =>
    (if x0 ≤ i && i < x1 then setRow v y0 y1 r 0 else r) ::
      setRows v x0 x1 y0 y1 rest (i + 1)

/-- df.iloc slice assignment over a rectangle: broadcast the value over the
intersection of the rectangle with the grid. -/
def setRegion (g : List (List String)) (x0 x1 y0 y1 : Nat) (v : String) :
    List (List String) :=
  setRows v x0 x1 y0 y1 g 0

/-- The body of the merge loop: a merge whose origin lies inside the shape
read before the loop is applied by a clipping slice assignment of the origin
value (an iloc lookup, which would raise out of range but is guarded);
any other merge leaves the frame untouched. -/
def mergeStep (maxX maxY : Nat) (h : List (List String)) (m : Merge) :
    Except String (List (List String)) :=
  if m.startRowIndex < maxX && m.startColumnIndex < maxY then
    match getCell h m.startRowIndex m.startColumnIndex with
    | .error e => .error e
    | .ok v =>
      .ok (setRegion h m.startRowIndex m.endRowIndex
            m.startColumnIndex m.endColumnIndex v)
  else .ok h

/-- AcademicParser.merge_cells: the shape is read once, then every merge of
the sheet is applied in the order given. -/
def merge_cells (g : List (List String)) (merges : List Merge) :
    Except String (List (List String)) :=
  merges.foldlM (mergeStep (gridRows g) (gridCols g)) g

/-- Lexicographic code-point comparison of two character lists, the string
order used by the Python comparisons that the groupby sort performs. -/
def lexLt : List Char → List Char → Bool
  | [], [] => false
  | [], _ :: _ => true
  | _ :: _, [] => false
  | a :: as, b :: bs => if a < b then true else if b < a then false else lexLt as bs

/-- Ordered insertion of a group key into the sorted duplicate-free key list,
modelling the sorted unique keys of a pandas groupby (sort defaults to
true and compares the string labels). -/
def insertKey (t : String) : List String → List String
  | [] => [t]
  | h :: rest =>
    if t = h then h :: rest
    else if lexLt t.data h.data then t :: h :: rest
    else h :: insertKey t rest

/-- The sorted distinct labels of a label list, as the groupby keys. -/
def sortedLabels (l : List String) : List String := l.foldr insertKey []

/-- refactor_course_df: set the time column as index and groupby it with
list aggregation.  The result has one row per distinct label, labels in
sorted order, and for each of the n group columns the list of that column's
values over the label's rows, in original row order. -/
def refactor_course_df (rows : List (String × List String)) (n : Nat) :
    List (String × List (List String)) :=
  (sortedLabels (rows.map Prod.fst)).map
    (fun t =>
      (t, (List.range n).map
        (fun k => (rows.filter (fun r => r.1 == t)).map (fun r => r.2.getD k ""))))

/-- The slot-label form named by the specification, HH:MM-HH:MM: two-digit
hour fields (at most 23) and two-digit minute fields (at most 59).
Modelled from the spec wording, for comparison with parseTimeslot. -/
def specHHMM : List Char → Bool
  | [h1, h2, ':', m1, m2, '-', h3, h4, ':', m3, m4] =>
    h1.isDigit && h2.isDigit && digitsVal [h1, h2] ≤ 23 &&
    m1.isDigit && m2.isDigit && digitsVal [m1, m2] ≤ 59 &&
    h3.isDigit && h4.isDigit && digitsVal [h3, h4] ≤ 23 &&
    m3.isDigit && m4.isDigit && digitsVal [m3, m4] ≤ 59
  | _ => false

/-- Read one cell with defaults; used to state pointwise grid facts. -/
def cellD (g : List (List String)) (i j : Nat) : String := (g.getD i []).getD j ""

/-- The string order of the groupby keys, as a relation on labels. -/
def labelLt (a b : String) : Prop := lexLt a.data b.data = true

/-- The identifying data of a built event for order statements: day anchor,
course, group, start and end times. -/
def eventKey (e : ScheduleEvent) :
    Option Date × Option String × Option String × Option Time × Option Time :=
  (e.day, e.course, e.group, e.start_time, e.end_time)

/-- Group, start and end of an event (the data fixed before stamping). -/
def key3 (e : ScheduleEvent) : Option String × Option Time × Option Time :=
  (e.group, e.start_time, e.end_time)

/-- Start time denoted by a slot label, when it parses. -/
def slotStartOf (t : String) : Option Time :=
  match parseTimeslot t.data with
  | .ok v => some v.1
  | .error _ => none

/-- End time denoted by a slot label, when it parses. -/
def slotEndOf (t : String) : Option Time :=
  match parseTimeslot t.data with
  | .ok v => some v.2
  | .error _ => none

/-- The declarative order specification of the built event sequence: day
sections in input order, courses in input order, slot rows in the order of
the refactored frame, group columns in column order. -/
def specEventOrder (sep : List (String × List (String × CourseDf)))
    (anchorOf : String → Date) :
    List (Option Date × Option String × Option String × Option Time × Option Time) :=
  sep.flatMap (fun dc =>
    dc.2.flatMap (fun cc =>
      cc.2.rows.flatMap (fun row =>
        (cc.2.groupNames.zip row.2).map (fun gc =>
          (some (anchorOf dc.1), some cc.1, some (format_group_name gc.1),
           slotStartOf row.1, slotEndOf row.1)))))

/-- First non-whitespace character of a list, if any (where the whitespace
scan of an end-anchored pattern stops). -/
def firstNonWs : List Char → Option Char
  | [] => none
  | c :: rest => if pySpace c then firstNonWs rest else some c

/-- No whitespace character is immediately followed by an opening
parenthesis; such an adjacency is the only way the first from_str pattern
can start a match. -/
def noTrig1 : List Char → Bool
  | [] => true
  | [_] => true
  | a :: b :: rest => !(pySpace a && b == '(') && noTrig1 (b :: rest)

/-- No whitespace character is immediately followed by a hyphen; such an
adjacency is the only way the second from_str pattern can start a match. -/
def noTrig2 : List Char → Bool
  | [] => true
  | [_] => true
  | a :: b :: rest => !(pySpace a && b == '-') && noTrig2 (b :: rest)

/-- Whether the list ends in a whitespace character. -/
def endsWs (l : List Char) : Bool :=
  match l.getLast? with
  | some c => pySpace c
  | none => false

/-- Claim C1, counterexample: the raw titles Math (lec) and
Math (lec) - foo differ only in a trailing hyphen suffix, yet from_str
canonicalizes them to different Subject instances (Math versus Math (lec)),
because the parenthetical pass runs before the suffix pass and does not
match once the suffix follows the parenthetical. -/
theorem c1_counterexample :
    "Math (lec) - foo".data = "Math (lec)".data ++ " - foo".data ∧
    (Subject.from_str [] "Math (lec)".data).1 ≠
      (Subject.from_str [] "Math (lec) - foo".data).1 := by
  exact ⟨by decide, by decide⟩

/-- Claim C9, counterexample: normalization is not idempotent; stripping the
hyphen suffix of A (x) - y exposes a trailing parenthetical that only the
second normalization pass removes. -/
theorem c9_counterexample :
    normalizeName (normalizeName "A (x) - y".data) ≠
      normalizeName "A (x) - y".data := by decide

/-- Claim C3, counterexample: a merge whose origin is in bounds but whose
end indices are beyond the 2 by 2 grid is applied clipped (the grid
changes), not skipped. -/
theorem c3_counterexample :
    merge_cells [["a", "b"], ["c", "d"]] [⟨0, 5, 0, 5⟩] =
      .ok [["a", "a"], ["a", "a"]] ∧
    [["a", "a"], ["a", "a"]] ≠ [["a", "b"], ["c", "d"]] := by
  exact ⟨rfl, by decide⟩

/-- Claim C8, counterexample: a merge range lying outside the 1 by 1 grid is
silently skipped; merge_cells returns the unchanged grid and no error. -/
theorem c8_counterexample :
    merge_cells [["x"]] [⟨5, 6, 0, 1⟩] = .ok [["x"]] ∧
    (merge_cells [["x"]] [⟨5, 6, 0, 1⟩]).isOk = true := by
  exact ⟨rfl, rfl⟩

/-- Claim C7, counterexample: the label 9:5-10:30 does not have the
HH:MM-HH:MM form, yet the slot parse succeeds (strptime accepts one-digit
hour and minute fields), so the parse does not fail exactly on non-matching
labels. -/
theorem c7_counterexample :
    parseTimeslot "9:5-10:30".data = .ok (⟨9, 5⟩, ⟨10, 30⟩) ∧
    specHHMM "9:5-10:30".data = false := by
  exact ⟨rfl, rfl⟩

/-- Claim C2: on the location line 214 (ONLY ON 14/6) the decoder cuts the
location to 214, but builds the override datetime with month 14 (the first
regex group) and day 6 (the second), so the datetime constructor raises
ValueError for every run year instead of producing June 14; from_cell
propagates the exception. -/
theorem c2_code_bug (y : Nat) (reg : Registry) (e : ScheduleEvent) :
    onlyOnSearch "214 (ONLY ON 14/6)".data = some (4, 14, 6) ∧
    String.mk (pyStrip ("214 (ONLY ON 14/6)".data.take 4)) = "214" ∧
    mkDatetime y 14 6 = none ∧
    ScheduleEvent.from_cell e reg ["Calculus", "Dr. X", "214 (ONLY ON 14/6)"] y =
      .error "ValueError: month must be in 1..12" := by
  refine ⟨rfl, rfl, rfl, rfl⟩

/-- Claim C6: two ScheduleEvents are equal exactly when subject, event type,
start time, end time and group all match; equality forces hash-tuple
equality; and the location, instructor, date, timestamp, recurrence, flags
and course fields never influence equality. -/
theorem c6_theorem (a b : ScheduleEvent) :
    (ScheduleEvent.eqPy a b = true ↔
       (a.subject = b.subject ∧ a.event_type = b.event_type ∧
        a.start_time = b.start_time ∧ a.end_time = b.end_time ∧
        a.group = b.group)) ∧
    (ScheduleEvent.eqPy a b = true →
       ScheduleEvent.hashKey a = ScheduleEvent.hashKey b) ∧
    (∀ loc ins d ts rec fl crs,
       ScheduleEvent.eqPy
         { a with location := loc, instructor := ins, day := d, dtstamp := ts,
                  recurrence := rec, flags := fl, course := crs } b =
         ScheduleEvent.eqPy a b) := by
  refine ⟨?_, ?_, ?_⟩
  · simp [ScheduleEvent.eqPy, and_assoc]
  · intro h
    simp [ScheduleEvent.eqPy] at h
    obtain ⟨⟨⟨⟨h1, h2⟩, h3⟩, h4⟩, h5⟩ := h
    simp [ScheduleEvent.hashKey, h1, h2, h3, h4, h5]
  · intro loc ins d ts rec fl crs
    simp [ScheduleEvent.eqPy]

/-- A concrete use of the C6 theorem: two events of the same slot differing
only in location and instructor are equal and hash equal. -/
theorem c6_witness :
    ScheduleEvent.eqPy
        { subject := some ⟨"Math".data, false⟩, start_time := some ⟨9, 0⟩,
          end_time := some ⟨10, 30⟩, group := some "B20-1",
          location := some "101" }
        { subject := some ⟨"Math".data, false⟩, start_time := some ⟨9, 0⟩,
          end_time := some ⟨10, 30⟩, group := some "B20-1",
          instructor := some "Dr. X" } = true ∧
    ScheduleEvent.hashKey
        { subject := some ⟨"Math".data, false⟩, start_time := some ⟨9, 0⟩,
          end_time := some ⟨10, 30⟩, group := some "B20-1",
          location := some "101" } =
      ScheduleEvent.hashKey
        { subject := some ⟨"Math".data, false⟩, start_time := some ⟨9, 0⟩,
          end_time := some ⟨10, 30⟩, group := some "B20-1",
          instructor := some "Dr. X" } := by
  refine ⟨by decide, (c6_theorem _ _).2.1 (by decide)⟩

/-- Claim C10: when the slot label parses, a non-empty cell list whose lines
are all empty still reaches the decoder, whose title extraction raises
(next on the exhausted filter iterator); only the literally empty list
yields the valid empty-slot event. -/
theorem c10_theorem (reg : Registry) (timeslot name : String)
    (lines : List String) (year : Nat) (st en : Time)
    (hts : parseTimeslot timeslot.data = .ok (st, en)) :
    (lines ≠ [] → (∀ s ∈ lines, s = "") →
       buildCellEvent reg timeslot name lines year = .error "StopIteration") ∧
    (lines = [] →
       buildCellEvent reg timeslot name lines year =
         .ok ({ group := some (format_group_name name), start_time := some st,
                end_time := some en }, reg)) := by
  constructor
  · intro hne hall
    have hfilter : lines.filter (fun s => s != "") = [] := by
      simp only [List.filter_eq_nil_iff]
      intro s hs
      simp [hall s hs]
    simp only [buildCellEvent, hts]
    have hempty : lines.isEmpty = false := by
      cases lines with
      | nil => exact absurd rfl hne
      | cons h t => rfl
    simp [hempty, ScheduleEvent.from_cell, hfilter]
  · intro h
    subst h
    simp [buildCellEvent, hts]

/-- A concrete use of the C10 theorem: for the slot 09:00-10:30 the cell
list containing one empty line raises, the empty list yields the empty
event. -/
theorem c10_witness :
    buildCellEvent [] "09:00-10:30" "B20-1" [""] 2025 = .error "StopIteration" ∧
    buildCellEvent [] "09:00-10:30" "B20-1" [] 2025 =
      .ok ({ group := some (format_group_name "B20-1"), start_time := some ⟨9, 0⟩,
             end_time := some ⟨10, 30⟩ }, []) := by
  refine ⟨(c10_theorem [] "09:00-10:30" "B20-1" [""] 2025 ⟨9, 0⟩ ⟨10, 30⟩ rfl).1
      (by decide) (by decide),
    (c10_theorem [] "09:00-10:30" "B20-1" [] 2025 ⟨9, 0⟩ ⟨10, 30⟩ rfl).2 rfl⟩

theorem setRow_length (v : String) (y0 y1 : Nat) :
    ∀ (row : List String) (j0 : Nat), (setRow v y0 y1 row j0).length = row.length
  | [], _ => rfl
  | _ :: rest, j0 => by simp [setRow, setRow_length v y0 y1 rest (j0 + 1)]

theorem setRows_length (v : String) (x0 x1 y0 y1 : Nat) :
    ∀ (h : List (List String)) (i0 : Nat),
      (setRows v x0 x1 y0 y1 h i0).length = h.length
  | [], _ => rfl
  | _ :: rest, i0 => by simp [setRows, setRows_length v x0 x1 y0 y1 rest (i0 + 1)]

theorem setRow_getD (v : String) (y0 y1 : Nat) :
    ∀ (row : List String) (j0 k : Nat), k < row.length →
      (setRow v y0 y1 row j0).getD k "" =
        if y0 ≤ j0 + k ∧ j0 + k < y1 then v else row.getD k ""
  | [], _, k, hk => absurd hk (by simp)
  | c :: rest, j0, 0, _ => by
    simp only [setRow, List.getD_cons_zero, Nat.add_zero]
    by_cases h1 : y0 ≤ j0 <;> by_cases h2 : j0 < y1 <;> simp [h1, h2]
  | c :: rest, j0, k + 1, hk => by
    simp only [setRow, List.getD_cons_succ]
    have harith : j0 + 1 + k = j0 + (k + 1) := by omega
    rw [setRow_getD v y0 y1 rest (j0 + 1) k (by simpa using hk), harith]

theorem setRows_getD (v : String) (x0 x1 y0 y1 : Nat) :
    ∀ (h : List (List String)) (i0 k : Nat), k < h.length →
      (setRows v x0 x1 y0 y1 h i0).getD k [] =
        if x0 ≤ i0 + k ∧ i0 + k < x1 then setRow v y0 y1 (h.getD k []) 0
        else h.getD k []
  | [], _, k, hk => absurd hk (by simp)
  | r :: rest, i0, 0, _ => by
    simp only [setRows, List.getD_cons_zero, Nat.add_zero]
    by_cases h1 : x0 ≤ i0 <;> by_cases h2 : i0 < x1 <;> simp [h1, h2]
  | r :: rest, i0, k + 1, hk => by
    simp only [setRows, List.getD_cons_succ]
    have harith : i0 + 1 + k = i0 + (k + 1) := by omega
    rw [setRows_getD v x0 x1 y0 y1 rest (i0 + 1) k (by simpa using hk), harith]

theorem setRows_row_length (v : String) (x0 x1 y0 y1 maxY : Nat) :
    ∀ (h : List (List String)) (i0 : Nat), (∀ r ∈ h, r.length = maxY) →
      ∀ r2 ∈ setRows v x0 x1 y0 y1 h i0, r2.length = maxY := by
  intro h
  induction h with
  | nil => intro i0 _ r2 hr2; simp [setRows] at hr2
  | cons r rest ih =>
    intro i0 hall r2 hr2
    simp only [setRows, List.mem_cons] at hr2
    rcases hr2 with hr2 | hr2
    · subst hr2
      split
      · simp [setRow_length, hall r (by simp)]
      · exact hall r (by simp)
    · exact ih (i0 + 1) (fun r' hr' => hall r' (by simp [hr'])) r2 hr2

theorem getD_mem_of_lt {g : List (List String)} {i : Nat} (hi : i < g.length) :
    g.getD i [] ∈ g := by
  rw [List.getD_eq_getElem g [] hi]
  exact List.getElem_mem hi

theorem getCell_ok {g : List (List String)} {i j : Nat} (hi : i < g.length)
    (hj : j < (g.getD i []).length) : getCell g i j = .ok (cellD g i j) := by
  have h1 : g.get? i = some (g.getD i []) := by
    rw [List.get?_eq_getElem?, List.getElem?_eq_getElem hi, List.getD_eq_getElem g [] hi]
  have h2 : (g.getD i []).get? j = some ((g.getD i []).getD j "") := by
    rw [List.get?_eq_getElem?, List.getElem?_eq_getElem hj,
      List.getD_eq_getElem (g.getD i []) "" hj]
  simp only [getCell, cellD, h1, h2]

/-- Claim C3, amended statement: a merge whose origin lies inside the grid
is applied clipped, broadcasting the origin value over the intersection of
its rectangle with the grid (so a fully inside range covers its whole
rectangle); only a merge whose origin is out of bounds is skipped. -/
theorem c3_amended (g : List (List String)) (m : Merge)
    (hrect : ∀ r ∈ g, r.length = gridCols g)
    (hx : m.startRowIndex < gridRows g) (hy : m.startColumnIndex < gridCols g) :
    ∃ g2, merge_cells g [m] = .ok g2 ∧
      ∀ i j, i < gridRows g → j < gridCols g →
        cellD g2 i j =
          if m.startRowIndex ≤ i ∧ i < m.endRowIndex ∧
              m.startColumnIndex ≤ j ∧ j < m.endColumnIndex then
            cellD g m.startRowIndex m.startColumnIndex
          else cellD g i j := by
  have hxl : m.startRowIndex < g.length := hx
  have hjl : m.startColumnIndex < (g.getD m.startRowIndex []).length := by
    rw [hrect _ (getD_mem_of_lt hxl)]; exact hy
  refine ⟨setRegion g m.startRowIndex m.endRowIndex m.startColumnIndex
      m.endColumnIndex (cellD g m.startRowIndex m.startColumnIndex), ?_, ?_⟩
  · simp [merge_cells, List.foldlM_cons, List.foldlM_nil, mergeStep, hx, hy,
      getCell_ok hxl hjl]
  · intro i j hi hj
    have hil : i < g.length := hi
    have hjrow : j < (g.getD i []).length := by
      rw [hrect _ (getD_mem_of_lt hil)]; exact hj
    unfold cellD setRegion
    rw [setRows_getD _ _ _ _ _ g 0 i hil]
    simp only [Nat.zero_add]
    by_cases hrow : m.startRowIndex ≤ i ∧ i < m.endRowIndex
    · rw [if_pos hrow, setRow_getD _ _ _ _ 0 j hjrow]
      simp only [Nat.zero_add]
      by_cases hcol : m.startColumnIndex ≤ j ∧ j < m.endColumnIndex
      · rw [if_pos hcol, if_pos ⟨hrow.1, hrow.2, hcol.1, hcol.2⟩]
      · rw [if_neg hcol, if_neg (by tauto)]
    · rw [if_neg hrow, if_neg (by tauto)]

/-- A concrete use of the C3 theorem: on the 2 by 2 grid, the in-bounds
origin of the range rows 0..5, columns 0..5 is applied clipped. -/
theorem c3_witness :
    (∀ r ∈ [["a", "b"], ["c", "d"]], r.length = gridCols [["a", "b"], ["c", "d"]]) ∧
    (Merge.mk 0 5 0 5).startRowIndex < gridRows [["a", "b"], ["c", "d"]] ∧
    (Merge.mk 0 5 0 5).startColumnIndex < gridCols [["a", "b"], ["c", "d"]] ∧
    (∃ g2, merge_cells [["a", "b"], ["c", "d"]] [⟨0, 5, 0, 5⟩] = .ok g2 ∧
      ∀ i j, i < gridRows [["a", "b"], ["c", "d"]] →
        j < gridCols [["a", "b"], ["c", "d"]] →
        cellD g2 i j =
          if (Merge.mk 0 5 0 5).startRowIndex ≤ i ∧ i < (Merge.mk 0 5 0 5).endRowIndex ∧
              (Merge.mk 0 5 0 5).startColumnIndex ≤ j ∧
              j < (Merge.mk 0 5 0 5).endColumnIndex then
            cellD [["a", "b"], ["c", "d"]] 0 0
          else cellD [["a", "b"], ["c", "d"]] i j) := by
  refine ⟨by decide, by decide, by decide, ?_⟩
  exact c3_amended [["a", "b"], ["c", "d"]] ⟨0, 5, 0, 5⟩ (by decide) (by decide) (by decide)

/-- Claim C8, amended statement: merge application never fails on a
rectangular grid; out-of-bounds merges are skipped (origin out of bounds)
or clipped (end out of bounds) silently, and merge_cells always returns a
grid. -/
theorem c8_amended (g : List (List String)) (ms : List Merge)
    (hrect : ∀ r ∈ g, r.length = gridCols g) :
    ∃ g2, merge_cells g ms = .ok g2 := by
  suffices h : ∀ (ms : List Merge) (h0 : List (List String)),
      h0.length = gridRows g → (∀ r ∈ h0, r.length = gridCols g) →
      ∃ g2, List.foldlM (mergeStep (gridRows g) (gridCols g)) h0 ms = .ok g2 by
    exact h ms g rfl hrect
  intro ms
  induction ms with
  | nil => exact fun h0 _ _ => ⟨h0, rfl⟩
  | cons m rest ih =>
    intro h0 hlen hr
    rw [List.foldlM_cons]
    by_cases hm : m.startRowIndex < gridRows g ∧ m.startColumnIndex < gridCols g
    · have hi : m.startRowIndex < h0.length := by rw [hlen]; exact hm.1
      have hj : m.startColumnIndex < (h0.getD m.startRowIndex []).length := by
        rw [hr _ (getD_mem_of_lt hi)]; exact hm.2
      have hstep : mergeStep (gridRows g) (gridCols g) h0 m =
          .ok (setRegion h0 m.startRowIndex m.endRowIndex m.startColumnIndex
            m.endColumnIndex (cellD h0 m.startRowIndex m.startColumnIndex)) := by
        simp [mergeStep, hm.1, hm.2, getCell_ok hi hj]
      obtain ⟨g2, hg2⟩ := ih
        (setRegion h0 m.startRowIndex m.endRowIndex m.startColumnIndex
          m.endColumnIndex (cellD h0 m.startRowIndex m.startColumnIndex))
        (by rw [setRegion, setRows_length]; exact hlen)
        (setRows_row_length _ _ _ _ _ _ h0 0 hr)
      exact ⟨g2, by rw [hstep]; simpa using hg2⟩
    · have hstep : mergeStep (gridRows g) (gridCols g) h0 m = .ok h0 := by
        have hcond : ¬((decide (m.startRowIndex < gridRows g) &&
            decide (m.startColumnIndex < gridCols g)) = true) := by
          simp only [Bool.and_eq_true, decide_eq_true_eq]; exact hm
        unfold mergeStep
        rw [if_neg hcond]
      obtain ⟨g2, hg2⟩ := ih h0 hlen hr
      exact ⟨g2, by rw [hstep]; simpa using hg2⟩

/-- A concrete use of the C8 theorem: the normalizer returns a grid (no
error) on a sheet whose only merge lies entirely out of bounds. -/
theorem c8_witness :
    (∀ r ∈ [["x"]], r.length = gridCols [["x"]]) ∧
    ∃ g2, merge_cells [["x"]] [⟨5, 6, 0, 1⟩, ⟨0, 9, 0, 9⟩] = .ok g2 := by
  exact ⟨by decide, c8_amended [["x"]] [⟨5, 6, 0, 1⟩, ⟨0, 9, 0, 9⟩] (by decide)⟩

theorem lexLt_irrefl : ∀ (a : List Char), lexLt a a = false
  | [] => rfl
  | c :: rest => by simp [lexLt, lexLt_irrefl rest]

theorem lexLt_ne {a b : List Char} (h : lexLt a b = true) : a ≠ b := by
  intro hab
  subst hab
  rw [lexLt_irrefl] at h
  cases h

theorem lexLt_trans :
    ∀ (a b c : List Char), lexLt a b = true → lexLt b c = true →
      lexLt a c = true
  | [], b, c, h1, h2 => by
    cases b with
    | nil => simp [lexLt] at h1
    | cons bh bt =>
      cases c with
      | nil => simp [lexLt] at h2
      | cons ch ct => simp [lexLt]
  | a :: as, b, c, h1, h2 => by
    cases b with
    | nil => simp [lexLt] at h1
    | cons bh bt =>
      cases c with
      | nil => simp [lexLt] at h2
      | cons ch ct =>
        simp only [lexLt] at h1 h2 ⊢
        by_cases h1a : a < bh
        · by_cases h2a : bh < ch
          · simp [lt_trans h1a h2a]
          · by_cases h2b : ch < bh
            · rw [if_neg h2a, if_pos h2b] at h2
              cases h2
            · have hbc : bh = ch := le_antisymm (not_lt.mp h2b) (not_lt.mp h2a)
              rw [← hbc]
              simp [h1a]
        · by_cases h1b : bh < a
          · rw [if_neg h1a, if_pos h1b] at h1
            cases h1
          · have hab : a = bh := le_antisymm (not_lt.mp h1b) (not_lt.mp h1a)
            rw [if_neg h1a, if_neg h1b] at h1
            subst hab
            by_cases h2a : a < ch
            · simp [h2a]
            · by_cases h2b : ch < a
              · rw [if_neg h2a, if_pos h2b] at h2
                cases h2
              · rw [if_neg h2a, if_neg h2b] at h2
                rw [if_neg h2a, if_neg h2b]
                exact lexLt_trans as bt ct h1 h2

theorem lexLt_total :
    ∀ (a b : List Char), a = b ∨ lexLt a b = true ∨ lexLt b a = true
  | [], [] => .inl rfl
  | [], _ :: _ => .inr (.inl (by simp [lexLt]))
  | _ :: _, [] => .inr (.inr (by simp [lexLt]))
  | a :: as, b :: bs => by
    rcases lt_trichotomy a b with h | h | h
    · exact .inr (.inl (by simp [lexLt, h]))
    · subst h
      rcases lexLt_total as bs with h2 | h2 | h2
      · exact .inl (by rw [h2])
      · exact .inr (.inl (by simp [lexLt, h2]))
      · exact .inr (.inr (by simp [lexLt, h2]))
    · exact .inr (.inr (by simp [lexLt, h]))

theorem labelLt_of_ne_of_not_lt {t h : String} (h1 : ¬(t = h))
    (h2 : ¬(lexLt t.data h.data = true)) : labelLt h t := by
  rcases lexLt_total t.data h.data with heq | hlt | hgt
  · exact absurd (by cases t; cases h; exact congrArg String.mk heq) h1
  · exact absurd hlt h2
  · exact hgt

theorem mem_insertKey (a t : String) :
    ∀ (l : List String), a ∈ insertKey t l ↔ a = t ∨ a ∈ l
  | [] => by simp [insertKey]
  | h :: rest => by
    by_cases h1 : t = h
    · rw [insertKey, if_pos h1]
      simp only [List.mem_cons, h1]
      tauto
    · by_cases h2 : lexLt t.data h.data = true
      · rw [insertKey, if_neg h1, if_pos h2]
        simp only [List.mem_cons]
      · rw [insertKey, if_neg h1, if_neg h2]
        simp only [List.mem_cons, mem_insertKey a t rest]
        tauto

theorem pairwise_insertKey (t : String) :
    ∀ (l : List String), l.Pairwise labelLt → (insertKey t l).Pairwise labelLt
  | [], _ => by simp [insertKey]
  | h :: rest, hp => by
    rw [List.pairwise_cons] at hp
    rw [insertKey]
    by_cases h1 : t = h
    · rw [if_pos h1]
      exact List.pairwise_cons.mpr hp
    · rw [if_neg h1]
      by_cases h2 : lexLt t.data h.data = true
      · rw [if_pos h2]
        refine List.pairwise_cons.mpr ⟨?_, List.pairwise_cons.mpr hp⟩
        intro x hx
        rcases List.mem_cons.mp hx with rfl | hx
        · exact h2
        · exact lexLt_trans _ _ _ h2 (hp.1 x hx)
      · rw [if_neg h2]
        have hlt : labelLt h t := labelLt_of_ne_of_not_lt h1 h2
        refine List.pairwise_cons.mpr ⟨?_, pairwise_insertKey t rest hp.2⟩
        intro x hx
        rcases (mem_insertKey x t rest).mp hx with rfl | hx
        · exact hlt
        · exact hp.1 x hx

theorem pairwise_sortedLabels (L : List String) :
    (sortedLabels L).Pairwise labelLt := by
  induction L with
  | nil => simp [sortedLabels]
  | cons h t ih => exact pairwise_insertKey h _ ih

theorem mem_sortedLabels (a : String) (L : List String) :
    a ∈ sortedLabels L ↔ a ∈ L := by
  induction L with
  | nil => simp [sortedLabels]
  | cons h t ih =>
    show a ∈ insertKey h (sortedLabels t) ↔ _
    rw [mem_insertKey a h (sortedLabels t), ih, List.mem_cons]

theorem nodup_sortedLabels (L : List String) : (sortedLabels L).Nodup :=
  (pairwise_sortedLabels L).imp
    (fun h hab => lexLt_ne h (congrArg String.data hab))

theorem filter_beq_length_one {l : List String} (hnd : l.Nodup) {t : String}
    (ht : t ∈ l) : (l.filter (fun s => s == t)).length = 1 := by
  induction l with
  | nil => cases ht
  | cons h rest ih =>
    rw [List.filter_cons]
    by_cases hb : h = t
    · have hpos : (h == t) = true := by simp [hb]
      rw [if_pos hpos]
      have hrest : rest.filter (fun s => s == t) = [] := by
        rw [List.filter_eq_nil_iff]
        intro a ha
        simp only [beq_iff_eq]
        rintro rfl
        exact (List.nodup_cons.mp hnd).1 (by rw [hb]; exact ha)
      rw [hrest]
      rfl
    · have hmem : t ∈ rest := by
        rcases List.mem_cons.mp ht with h1 | h1
        · exact absurd h1.symm hb
        · exact h1
      have hne : ¬((h == t) = true) := by simp [hb]
      rw [if_neg hne]
      exact ih (List.nodup_cons.mp hnd).2 hmem

theorem filter_fst_map_keys (keys : List String)
    (g : String → List (List String)) (t : String) :
    ((keys.map (fun s => (s, g s))).filter (fun p => p.1 == t)) =
      (keys.filter (fun s => s == t)).map (fun s => (s, g s)) := by
  induction keys with
  | nil => rfl
  | cons h rest ih =>
    rw [List.map_cons, List.filter_cons, List.filter_cons]
    by_cases hb : (h == t) = true
    · simp [hb, ih]
    · have hb' : (h == t) = false := by simpa using hb
      simp [hb', ih]

theorem range_map_getD {α : Type} (n k : Nat) (g : Nat → α) (d : α)
    (hk : k < n) : ((List.range n).map g).getD k d = g k := by
  rw [List.getD_eq_getElem _ _ (by simpa using hk)]
  simp

/-- Claim C4: inside one course section, every set of rows sharing one
time-slot label, adjacent or not, collapses to exactly one logical slot row
of the refactored frame, and for each retained group column that row holds
the cell values of the label's rows in top-to-bottom row order. -/
theorem c4_theorem (rows : List (String × List String)) (n k : Nat)
    (t : String) (ht : t ∈ rows.map Prod.fst) (hk : k < n) :
    ((refactor_course_df rows n).filter (fun p => p.1 == t)).length = 1 ∧
    ∀ p ∈ refactor_course_df rows n, p.1 = t →
      p.2.getD k [] =
        (rows.filter (fun r => r.1 == t)).map (fun r => r.2.getD k "") := by
  constructor
  · rw [refactor_course_df, filter_fst_map_keys, List.length_map]
    exact filter_beq_length_one (nodup_sortedLabels _)
      ((mem_sortedLabels t _).mpr ht)
  · intro p hp hpt
    rw [refactor_course_df] at hp
    rcases List.mem_map.mp hp with ⟨s, _, rfl⟩
    rcases hpt with rfl
    exact range_map_getD n k _ [] hk

/-- A concrete use of the C4 theorem: the label 09:00-10:30 appears in rows
0 and 2 (not adjacent); both collapse into one slot whose first-column list
keeps row order. -/
theorem c4_witness :
    "09:00-10:30" ∈
      ([("09:00-10:30", ["a1", "a2"]), ("10:40-12:10", ["b1", "b2"]),
        ("09:00-10:30", ["c1", "c2"])].map Prod.fst) ∧
    0 < 2 ∧
    (((refactor_course_df
          [("09:00-10:30", ["a1", "a2"]), ("10:40-12:10", ["b1", "b2"]),
           ("09:00-10:30", ["c1", "c2"])] 2).filter
        (fun p => p.1 == "09:00-10:30")).length = 1 ∧
      ∀ p ∈ refactor_course_df
          [("09:00-10:30", ["a1", "a2"]), ("10:40-12:10", ["b1", "b2"]),
           ("09:00-10:30", ["c1", "c2"])] 2, p.1 = "09:00-10:30" →
        p.2.getD 0 [] =
          ([("09:00-10:30", ["a1", "a2"]), ("10:40-12:10", ["b1", "b2"]),
            ("09:00-10:30", ["c1", "c2"])].filter
              (fun r => r.1 == "09:00-10:30")).map (fun r => r.2.getD 0 "")) := by
  refine ⟨by decide, by decide, c4_theorem _ 2 0 "09:00-10:30" (by decide) (by decide)⟩

theorem pySplit_ne_nil (sep : Char) : ∀ (l : List Char), pySplit sep l ≠ []
  | [] => by simp [pySplit]
  | c :: rest => by
    rw [pySplit]
    cases h : pySplit sep rest with
    | nil => simp
    | cons a t =>
      by_cases hc : (c == sep) = true
      · simp [hc]
      · have hc' : (c == sep) = false := by simpa using hc
        simp [hc']

theorem pySplit_no_sep (sep : Char) :
    ∀ (l : List Char), sep ∉ l → pySplit sep l = [l]
  | [], _ => rfl
  | c :: rest, hm => by
    have hc : c ≠ sep := fun h => hm (by simp [h])
    have hrest : pySplit sep rest = [rest] :=
      pySplit_no_sep sep rest (fun h => hm (by simp [h]))
    rw [pySplit, hrest]
    have hc' : (c == sep) = false := by simpa using hc
    simp [hc']

theorem pySplit_pair (sep : Char) :
    ∀ (a b : List Char), sep ∉ a → sep ∉ b →
      pySplit sep (a ++ sep :: b) = [a, b]
  | [], b, _, hb => by
    rw [List.nil_append, pySplit, pySplit_no_sep sep b hb]
    simp
  | x :: a', b, ha, hb => by
    have hx : x ≠ sep := fun h => ha (by simp [h])
    have hrest : pySplit sep (a' ++ sep :: b) = [a', b] :=
      pySplit_pair sep a' b (fun h => ha (by simp [h])) hb
    rw [List.cons_append, pySplit, hrest]
    have hx' : (x == sep) = false := by simpa using hx
    simp [hx']

theorem pySplit_eq_single (sep : Char) :
    ∀ (l a : List Char), pySplit sep l = [a] → l = a := by
  intro l
  induction l with
  | nil =>
    intro a h
    have h' : [([] : List Char)] = [a] := h
    injection h' with h1 _
  | cons c rest ih =>
    intro a h
    rw [pySplit] at h
    split at h
    · rename_i heq
      exact absurd heq (pySplit_ne_nil sep rest)
    · rename_i p t heq
      split at h
      · cases h
      · injection h with h1 h2
        have hrp : rest = p := ih p (by rw [heq, h2])
        rw [← h1, hrp]

theorem pySplit_eq_pair (sep : Char) :
    ∀ (l a b : List Char), pySplit sep l = [a, b] → l = a ++ sep :: b := by
  intro l
  induction l with
  | nil => intro a b h; simp [pySplit] at h
  | cons c rest ih =>
    intro a b h
    rw [pySplit] at h
    split at h
    · rename_i heq
      exact absurd heq (pySplit_ne_nil sep rest)
    · rename_i p t heq
      split at h
      · rename_i hc
        injection h with h1 h2
        injection h2 with h2a h2b
        have hcs : c = sep := by simpa using hc
        have hrb : rest = b := by
          apply pySplit_eq_single sep
          rw [heq, h2a, h2b]
        rw [← h1, hcs, hrb]
        rfl
      · injection h with h1 h2
        have : rest = p ++ sep :: b := by
          apply ih
          rw [heq]
          cases t with
          | nil => cases h2
          | cons q u =>
            injection h2 with h2a h2b
            cases u with
            | nil => rw [h2a]
            | cons _ _ => cases h2b
        rw [← h1, List.cons_append, this]

theorem hourLang_all_digits :
    ∀ (hs : List Char), hourLang hs = true → ∀ c ∈ hs, c.isDigit = true
  | [], hh, _, _ => by cases hh
  | [c], hh, d, hd => by
    simp only [List.mem_singleton] at hd
    subst hd
    simpa [hourLang] using hh
  | [c1, c2], hh, d, hd => by
    simp only [hourLang, Bool.and_eq_true] at hh
    rcases List.mem_cons.mp hd with rfl | hd2
    · exact hh.1.1
    · rcases List.mem_cons.mp hd2 with rfl | hd3
      · exact hh.1.2
      · cases hd3
  | _ :: _ :: _ :: _, hh, _, _ => by cases hh

theorem minLang_all_digits :
    ∀ (ms : List Char), minLang ms = true → ∀ c ∈ ms, c.isDigit = true
  | [], hh, _, _ => by cases hh
  | [c], hh, d, hd => by
    simp only [List.mem_singleton] at hd
    subst hd
    simpa [minLang] using hh
  | [c1, c2], hh, d, hd => by
    simp only [minLang, Bool.and_eq_true] at hh
    rcases List.mem_cons.mp hd with rfl | hd2
    · exact hh.1.1
    · rcases List.mem_cons.mp hd2 with rfl | hd3
      · exact hh.1.2
      · cases hd3
  | _ :: _ :: _ :: _, hh, _, _ => by cases hh

theorem strptimeHM_ok_iff (x : List Char) :
    (∃ tv, strptimeHM x = .ok tv) ↔
      ∃ hs ms, x = hs ++ ':' :: ms ∧ hourLang hs = true ∧ minLang ms = true := by
  constructor
  · rintro ⟨tv, htv⟩
    rw [strptimeHM] at htv
    split at htv
    · rename_i hs ms heq
      split at htv
      · rename_i hlang
        simp only [Bool.and_eq_true] at hlang
        exact ⟨hs, ms, pySplit_eq_pair ':' x hs ms heq, hlang.1, hlang.2⟩
      · cases htv
    · cases htv
  · rintro ⟨hs, ms, rfl, hh, hm⟩
    have hnc1 : ':' ∉ hs := by
      intro hmem
      exact absurd (hourLang_all_digits hs hh ':' hmem) (by decide)
    have hnc2 : ':' ∉ ms := by
      intro hmem
      exact absurd (minLang_all_digits ms hm ':' hmem) (by decide)
    refine ⟨⟨digitsVal hs, digitsVal ms⟩, ?_⟩
    rw [strptimeHM, pySplit_pair ':' hs ms hnc1 hnc2]
    simp [hh, hm]

/-- Claim C7, amended statement: during event building the slot-label parse
succeeds exactly on labels with one hyphen separating two strptime times,
each a one-or-two digit hour at most 23, a colon, and a one-or-two digit
minute at most 59; every other label fails with a ValueError (tuple
unpacking or strptime).  The strict HH:MM-HH:MM form of the claim is
sufficient but not necessary. -/
theorem c7_amended (l : List Char) :
    (∃ v, parseTimeslot l = .ok v) ↔
      ∃ a b, l = a ++ '-' :: b ∧
        (∃ hs ms, a = hs ++ ':' :: ms ∧ hourLang hs = true ∧ minLang ms = true) ∧
        (∃ hs ms, b = hs ++ ':' :: ms ∧ hourLang hs = true ∧ minLang ms = true) := by
  constructor
  · rintro ⟨v, hv⟩
    rw [parseTimeslot] at hv
    split at hv
    · rename_i a b heq
      split at hv
      · cases hv
      · rename_i t1 h1
        split at hv
        · cases hv
        · rename_i t2 h2
          exact ⟨a, b, pySplit_eq_pair '-' l a b heq,
            (strptimeHM_ok_iff a).mp ⟨t1, h1⟩, (strptimeHM_ok_iff b).mp ⟨t2, h2⟩⟩
    · cases hv
  · rintro ⟨a, b, rfl, hfa, hfb⟩
    have hna : '-' ∉ a := by
      obtain ⟨hs, ms, rfl, hh, hm⟩ := hfa
      intro hmem
      rcases List.mem_append.mp hmem with h1 | h1
      · exact absurd (hourLang_all_digits hs hh '-' h1) (by decide)
      · rcases List.mem_cons.mp h1 with h2 | h2
        · exact absurd h2 (by decide)
        · exact absurd (minLang_all_digits ms hm '-' h2) (by decide)
    have hnb : '-' ∉ b := by
      obtain ⟨hs, ms, rfl, hh, hm⟩ := hfb
      intro hmem
      rcases List.mem_append.mp hmem with h1 | h1
      · exact absurd (hourLang_all_digits hs hh '-' h1) (by decide)
      · rcases List.mem_cons.mp h1 with h2 | h2
        · exact absurd h2 (by decide)
        · exact absurd (minLang_all_digits ms hm '-' h2) (by decide)
    obtain ⟨t1, h1⟩ := (strptimeHM_ok_iff a).mpr hfa
    obtain ⟨t2, h2⟩ := (strptimeHM_ok_iff b).mpr hfb
    refine ⟨(t1, t2), ?_⟩
    rw [parseTimeslot, pySplit_pair '-' a b hna hnb]
    simp [h1, h2]

theorem map_bind_eq {α β γ : Type} (l : List α) (f : α → List β) (g : β → γ) :
    (l.flatMap f).map g = l.flatMap (fun a => (f a).map g) := by
  induction l with
  | nil => rfl
  | cons a t ih => simp [List.flatMap_cons, ih]

theorem from_cell_preserves (e : ScheduleEvent) (reg : Registry)
    (lines : List String) (y : Nat) (e2 : ScheduleEvent) (reg2 : Registry)
    (h : ScheduleEvent.from_cell e reg lines y = .ok (e2, reg2)) :
    e2.group = e.group ∧ e2.start_time = e.start_time ∧
      e2.end_time = e.end_time ∧ e2.day = e.day ∧ e2.course = e.course := by
  rw [ScheduleEvent.from_cell] at h
  split at h
  · cases h
  · split at h
    · cases h
    · injection h with h1
      injection h1 with hev hreg
      rw [← hev]
      exact ⟨rfl, rfl, rfl, rfl, rfl⟩

theorem buildCellEvent_key (reg : Registry) (t name : String)
    (lines : List String) (y : Nat) (ev : ScheduleEvent) (reg1 : Registry)
    (h : buildCellEvent reg t name lines y = .ok (ev, reg1)) :
    key3 ev = (some (format_group_name name), slotStartOf t, slotEndOf t) ∧
      ev.day = none ∧ ev.course = none := by
  rw [buildCellEvent] at h
  split at h
  · cases h
  · rename_i st en heq
    have hs : slotStartOf t = some st := by simp [slotStartOf, heq]
    have he : slotEndOf t = some en := by simp [slotEndOf, heq]
    split at h
    · injection h with h1
      injection h1 with hev hreg
      rw [← hev, key3, hs, he]
      exact ⟨rfl, rfl, rfl⟩
    · obtain ⟨hg, hst, hen, hd, hc⟩ := from_cell_preserves _ _ _ _ _ _ h
      rw [key3, hg, hst, hen, hd, hc, hs, he]
      exact ⟨rfl, rfl, rfl⟩

theorem eventsForCells_key :
    ∀ (gz : List (String × List String)) (reg : Registry) (t : String)
      (y : Nat) (evs : List ScheduleEvent) (reg2 : Registry),
      eventsForCells reg t y gz = .ok (evs, reg2) →
      evs.map key3 = gz.map (fun gc =>
        (some (format_group_name gc.1), slotStartOf t, slotEndOf t)) ∧
      ∀ e ∈ evs, e.day = none ∧ e.course = none := by
  intro gz
  induction gz with
  | nil =>
    intro reg t y evs reg2 h
    rw [eventsForCells] at h
    injection h with h1
    injection h1 with hev hreg
    rw [← hev]
    exact ⟨rfl, by simp⟩
  | cons gc rest ih =>
    intro reg t y evs reg2 h
    obtain ⟨name, lines⟩ := gc
    rw [eventsForCells] at h
    split at h
    · cases h
    · rename_i ev reg1 heq1
      split at h
      · cases h
      · rename_i evs' reg2' heq2
        injection h with h1
        injection h1 with hev hreg
        obtain ⟨hk, hd, hc⟩ := buildCellEvent_key _ _ _ _ _ _ _ heq1
        obtain ⟨hmap, hmem⟩ := ih _ _ _ _ _ heq2
        constructor
        · rw [← hev, List.map_cons, List.map_cons, hk, hmap]
        · intro e hm
          rw [← hev] at hm
          rcases List.mem_cons.mp hm with rfl | hm2
          · exact ⟨hd, hc⟩
          · exact hmem e hm2

theorem get_events_key :
    ∀ (rows : List (String × List (List String))) (reg : Registry)
      (gns : List String) (y : Nat) (evs : List ScheduleEvent) (reg2 : Registry),
      get_events_for_course reg gns y rows = .ok (evs, reg2) →
      evs.map key3 = rows.flatMap (fun row => (gns.zip row.2).map (fun gc =>
        (some (format_group_name gc.1), slotStartOf row.1, slotEndOf row.1))) ∧
      ∀ e ∈ evs, e.day = none ∧ e.course = none := by
  intro rows
  induction rows with
  | nil =>
    intro reg gns y evs reg2 h
    rw [get_events_for_course] at h
    injection h with h1
    injection h1 with hev hreg
    rw [← hev]
    exact ⟨rfl, by simp⟩
  | cons row rest ih =>
    intro reg gns y evs reg2 h
    obtain ⟨t, cells⟩ := row
    rw [get_events_for_course] at h
    split at h
    · cases h
    · rename_i evs1 reg1 heq1
      split at h
      · cases h
      · rename_i evs2 reg2' heq2
        injection h with h1
        injection h1 with hev hreg
        obtain ⟨hmap1, hmem1⟩ := eventsForCells_key _ _ _ _ _ _ heq1
        obtain ⟨hmap2, hmem2⟩ := ih _ _ _ _ _ heq2
        constructor
        · rw [← hev, List.map_append, hmap1, hmap2, List.flatMap_cons]
        · intro e hm
          rw [← hev] at hm
          rcases List.mem_append.mp hm with hm1 | hm2
          · exact hmem1 e hm1
          · exact hmem2 e hm2

theorem convertCourse_key (reg : Registry) (dayAnchor : Date) (rrule : RRule)
    (courseName : String) (df : CourseDf) (nowTs : Date) (y : Nat)
    (evs : List ScheduleEvent) (reg1 : Registry)
    (h : convertCourse reg dayAnchor rrule courseName df nowTs y = .ok (evs, reg1)) :
    evs.map eventKey = df.rows.flatMap (fun row =>
      (df.groupNames.zip row.2).map (fun gc =>
        (some dayAnchor, some courseName, some (format_group_name gc.1),
         slotStartOf row.1, slotEndOf row.1))) := by
  rw [convertCourse] at h
  split at h
  · cases h
  · rename_i evs0 reg0 heq
    injection h with h1
    injection h1 with hev hreg
    obtain ⟨hmap, _⟩ := get_events_key _ _ _ _ _ _ heq
    rw [← hev, List.map_map]
    have hL : (eventKey ∘ (fun ev : ScheduleEvent =>
        { ev with day := some dayAnchor, recurrence := some rrule,
                  course := some courseName, dtstamp := some nowTs })) =
        ((fun p : Option String × Option Time × Option Time =>
          ((some dayAnchor : Option Date), (some courseName : Option String), p)) ∘
          key3) := rfl
    rw [hL, ← List.map_map, hmap, map_bind_eq]
    simp only [List.map_map]
    rfl

theorem convertDay_key :
    ∀ (courses : List (String × CourseDf)) (reg : Registry) (dayAnchor : Date)
      (rrule : RRule) (nowTs : Date) (y : Nat) (evs : List ScheduleEvent)
      (reg2 : Registry),
      convertDay reg dayAnchor rrule nowTs y courses = .ok (evs, reg2) →
      evs.map eventKey = courses.flatMap (fun cc =>
        cc.2.rows.flatMap (fun row =>
          (cc.2.groupNames.zip row.2).map (fun gc =>
            (some dayAnchor, some cc.1, some (format_group_name gc.1),
             slotStartOf row.1, slotEndOf row.1)))) := by
  intro courses
  induction courses with
  | nil =>
    intro reg dayAnchor rrule nowTs y evs reg2 h
    rw [convertDay] at h
    injection h with h1
    injection h1 with hev hreg
    rw [← hev]
    rfl
  | cons cc rest ih =>
    intro reg dayAnchor rrule nowTs y evs reg2 h
    obtain ⟨courseName, df⟩ := cc
    rw [convertDay] at h
    split at h
    · cases h
    · rename_i evs1 reg1 heq1
      split at h
      · cases h
      · rename_i evs2 reg2' heq2
        injection h with h1
        injection h1 with hev hreg
        rw [← hev, List.map_append, convertCourse_key _ _ _ _ _ _ _ _ _ heq1,
          ih _ _ _ _ _ _ _ heq2, List.flatMap_cons]

/-- Claim C5, amended statement: the built event sequence follows day
section order, then course order, then slot order, then group column order,
and within each course section the distinct slot labels appear in ascending
lexicographic label order (the groupby sorts its keys), not in first-seen
row order; the whole order is a function of the input, hence
deterministic. -/
theorem c5_amended :
    (∀ (rows : List (String × List String)) (n : Nat),
        ((refactor_course_df rows n).map Prod.fst).Pairwise labelLt) ∧
    (∀ (sep : List (String × List (String × CourseDf)))
        (anchorOf : String → Date) (veryLastDate nowTs : Date) (year : Nat)
        (reg : Registry) (evs : List ScheduleEvent) (reg2 : Registry),
        convert_separation sep anchorOf veryLastDate nowTs year reg =
            .ok (evs, reg2) →
        evs.map eventKey = specEventOrder sep anchorOf) := by
  constructor
  · intro rows n
    have hfst : ((refactor_course_df rows n).map Prod.fst) =
        sortedLabels (rows.map Prod.fst) := by
      rw [refactor_course_df, List.map_map]
      show (sortedLabels (rows.map Prod.fst)).map (fun t => t) = _
      simp
    rw [hfst]
    exact pairwise_sortedLabels _
  · intro sep
    induction sep with
    | nil =>
      intro anchorOf veryLastDate nowTs year reg evs reg2 h
      rw [convert_separation] at h
      injection h with h1
      injection h1 with hev hreg
      rw [← hev]
      rfl
    | cons dc rest ih =>
      intro anchorOf veryLastDate nowTs year reg evs reg2 h
      obtain ⟨dayName, courses⟩ := dc
      rw [convert_separation] at h
      split at h
      · cases h
      · rename_i evs1 reg1 heq1
        split at h
        · cases h
        · rename_i evs2 reg2' heq2
          injection h with h1
          injection h1 with hev hreg
          rw [← hev, List.map_append,
            convertDay_key _ _ _ _ _ _ _ _ heq1,
            ih _ _ _ _ _ _ _ heq2]
          simp only [specEventOrder, List.flatMap_cons]

/-- Claim C5, counterexample: in a course section whose first-seen slot
label is 10:00-11:30 followed by 09:00-10:30, the built sequence starts
with the 09:00 event (sorted label order), not with the first-seen
10:00 slot. -/
theorem c5_counterexample :
    ([("10:00-11:30", ["A"]), ("09:00-10:30", ["B"])].map Prod.fst =
      ["10:00-11:30", "09:00-10:30"]) ∧
    (convert_separation
        [("monday", [("Math", ⟨["B20-1"],
            refactor_course_df
              [("10:00-11:30", ["A"]), ("09:00-10:30", ["B"])] 1⟩)])]
        (fun _ => ⟨2025, 1, 13⟩) ⟨2025, 5, 31⟩ ⟨2025, 1, 1⟩ 2025 []).map
        (fun p => p.1.map (fun e => e.start_time)) =
      .ok [some ⟨9, 0⟩, some ⟨10, 0⟩] ∧
    [some (⟨9, 0⟩ : Time), some ⟨10, 0⟩] ≠ [some ⟨10, 0⟩, some ⟨9, 0⟩] := by
  refine ⟨by decide, by rfl, by decide⟩

/-- A concrete use of the C5 theorem: the event order of a one-day,
one-course separation equals the declarative specification order. -/
theorem c5_witness :
    ∃ evs reg2,
      convert_separation
          [("tuesday", [("Math", ⟨["B20-1", "B20-2"],
            refactor_course_df
              [("09:00-10:30", ["Calculus (lec)", "x"]),
               ("10:40-12:10", ["Lab", "y"])] 2⟩)])]
          (fun _ => ⟨2025, 1, 14⟩) ⟨2025, 5, 31⟩ ⟨2025, 1, 2⟩ 2025 [] =
        .ok (evs, reg2) ∧
      evs.map eventKey =
        specEventOrder
          [("tuesday", [("Math", ⟨["B20-1", "B20-2"],
            refactor_course_df
              [("09:00-10:30", ["Calculus (lec)", "x"]),
               ("10:40-12:10", ["Lab", "y"])] 2⟩)])]
          (fun _ => ⟨2025, 1, 14⟩) := by
  have hok : ∃ p, convert_separation
      [("tuesday", [("Math", ⟨["B20-1", "B20-2"],
        refactor_course_df
          [("09:00-10:30", ["Calculus (lec)", "x"]),
           ("10:40-12:10", ["Lab", "y"])] 2⟩)])]
      (fun _ => ⟨2025, 1, 14⟩) ⟨2025, 5, 31⟩ ⟨2025, 1, 2⟩ 2025 [] = .ok p := by
    cases h : convert_separation
        [("tuesday", [("Math", ⟨["B20-1", "B20-2"],
          refactor_course_df
            [("09:00-10:30", ["Calculus (lec)", "x"]),
             ("10:40-12:10", ["Lab", "y"])] 2⟩)])]
        (fun _ => ⟨2025, 1, 14⟩) ⟨2025, 5, 31⟩ ⟨2025, 1, 2⟩ 2025 [] with
      | error e =>
        have hisok : (convert_separation
            [("tuesday", [("Math", ⟨["B20-1", "B20-2"],
              refactor_course_df
                [("09:00-10:30", ["Calculus (lec)", "x"]),
                 ("10:40-12:10", ["Lab", "y"])] 2⟩)])]
            (fun _ => ⟨2025, 1, 14⟩) ⟨2025, 5, 31⟩ ⟨2025, 1, 2⟩ 2025 []).isOk =
            true := by rfl
        rw [h] at hisok
        cases hisok
      | ok p => exact ⟨p, rfl⟩
  obtain ⟨⟨evs, reg2⟩, hp⟩ := hok
  exact ⟨evs, reg2, hp, c5_amended.2 _ _ _ _ _ _ _ _ hp⟩

theorem firstNonWs_none_iff :
    ∀ (l : List Char), firstNonWs l = none ↔ allSpace l = true
  | [] => by simp [firstNonWs, allSpace]
  | c :: rest => by
    by_cases hc : pySpace c = true
    · rw [firstNonWs, if_pos hc, firstNonWs_none_iff rest]
      show allSpace rest = true ↔ allSpace (c :: rest) = true
      simp [allSpace, hc]
    · rw [firstNonWs, if_neg hc]
      simp [allSpace, hc]

theorem noTrig1_tail : ∀ {a : Char} {l : List Char},
    noTrig1 (a :: l) = true → noTrig1 l = true := by
  intro a l h
  cases l with
  | nil => rfl
  | cons b rest =>
    rw [noTrig1, Bool.and_eq_true] at h
    exact h.2

theorem noTrig2_tail : ∀ {a : Char} {l : List Char},
    noTrig2 (a :: l) = true → noTrig2 l = true := by
  intro a l h
  cases l with
  | nil => rfl
  | cons b rest =>
    rw [noTrig2, Bool.and_eq_true] at h
    exact h.2

theorem noTrig1_pair {a b : Char} {l : List Char}
    (h : noTrig1 (a :: b :: l) = true) (ha : pySpace a = true) : b ≠ '(' := by
  rw [noTrig1, Bool.and_eq_true] at h
  intro hb
  have := h.1
  rw [ha, hb] at this
  simp at this

theorem noTrig2_pair {a b : Char} {l : List Char}
    (h : noTrig2 (a :: b :: l) = true) (ha : pySpace a = true) : b ≠ '-' := by
  rw [noTrig2, Bool.and_eq_true] at h
  intro hb
  have := h.1
  rw [ha, hb] at this
  simp at this

theorem endsWs_cons {c : Char} {l : List Char} (h : l ≠ []) :
    endsWs (c :: l) = endsWs l := by
  cases l with
  | nil => exact absurd rfl h
  | cons d t => rw [endsWs, endsWs, List.getLast?_cons_cons]

theorem endsWs_of_allSpace : ∀ {l : List Char},
    allSpace l = true → l ≠ [] → endsWs l = true := by
  intro l
  induction l with
  | nil => intro _ h; exact absurd rfl h
  | cons c rest ih =>
    intro hall _
    rw [allSpace, List.all_cons, Bool.and_eq_true] at hall
    cases rest with
    | nil => rw [endsWs]; simp [List.getLast?]; exact hall.1
    | cons d t =>
      rw [endsWs_cons (by simp)]
      exact ih hall.2 (by simp)

theorem p1AfterWs_stop :
    ∀ (l : List Char) (X : List Char) (c : Char), firstNonWs l = some c →
      c ≠ '(' → p1AfterWs (l ++ X) = false
  | [], _, c, h, _ => by simp [firstNonWs] at h
  | a :: rest, X, c, h, hc => by
    by_cases ha : pySpace a = true
    · rw [firstNonWs, if_pos ha] at h
      have hne : (a == '(') = false := by
        have : a ≠ '(' := by
          intro habs
          rw [habs] at ha
          simp [pySpace] at ha
        simpa using this
      rw [List.cons_append, p1AfterWs, hne]
      simp only [Bool.false_eq_true, if_false, ha, Bool.true_and]
      exact p1AfterWs_stop rest X c h hc
    · rw [firstNonWs, if_neg ha] at h
      injection h with hac
      have hne : (a == '(') = false := by
        rw [hac]
        simpa using hc
      rw [List.cons_append, p1AfterWs, hne]
      simp only [Bool.false_eq_true, if_false]
      simp [ha]

theorem p1AfterWs_skip :
    ∀ (l : List Char) (X : List Char), allSpace l = true →
      p1AfterWs (l ++ X) = p1AfterWs X
  | [], _, _ => rfl
  | a :: rest, X, h => by
    rw [allSpace, List.all_cons, Bool.and_eq_true] at h
    have hne : (a == '(') = false := by
      have : a ≠ '(' := by
        intro habs
        rw [habs] at h
        simp [pySpace] at h
      simpa using this
    rw [List.cons_append, p1AfterWs, hne]
    simp only [Bool.false_eq_true, if_false, h.1, Bool.true_and]
    exact p1AfterWs_skip rest X h.2

theorem p2AfterWs_stop :
    ∀ (l : List Char) (X : List Char) (c : Char), firstNonWs l = some c →
      c ≠ '-' → p2AfterWs (l ++ X) = false
  | [], _, c, h, _ => by simp [firstNonWs] at h
  | a :: rest, X, c, h, hc => by
    by_cases ha : pySpace a = true
    · rw [firstNonWs, if_pos ha] at h
      have hne : (a == '-') = false := by
        have : a ≠ '-' := by
          intro habs
          rw [habs] at ha
          simp [pySpace] at ha
        simpa using this
      rw [List.cons_append, p2AfterWs, hne]
      simp only [Bool.false_eq_true, if_false, ha, Bool.true_and]
      exact p2AfterWs_stop rest X c h hc
    · rw [firstNonWs, if_neg ha] at h
      injection h with hac
      have hne : (a == '-') = false := by
        rw [hac]
        simpa using hc
      rw [List.cons_append, p2AfterWs, hne]
      simp only [Bool.false_eq_true, if_false]
      simp [ha]

theorem p2AfterWs_skip :
    ∀ (l : List Char) (X : List Char), allSpace l = true →
      p2AfterWs (l ++ X) = p2AfterWs X
  | [], _, _ => rfl
  | a :: rest, X, h => by
    rw [allSpace, List.all_cons, Bool.and_eq_true] at h
    have hne : (a == '-') = false := by
      have : a ≠ '-' := by
        intro habs
        rw [habs] at h
        simp [pySpace] at h
      simpa using this
    rw [List.cons_append, p2AfterWs, hne]
    simp only [Bool.false_eq_true, if_false, h.1, Bool.true_and]
    exact p2AfterWs_skip rest X h.2

theorem p1AfterWs_allSpace (l : List Char) (h : allSpace l = true) :
    p1AfterWs l = false := by
  have := p1AfterWs_skip l [] h
  rwa [List.append_nil] at this

theorem p2AfterWs_allSpace (l : List Char) (h : allSpace l = true) :
    p2AfterWs l = false := by
  have := p2AfterWs_skip l [] h
  rwa [List.append_nil] at this

theorem p1AfterWs_stop_plain (l : List Char) (c : Char)
    (h : firstNonWs l = some c) (hc : c ≠ '(') : p1AfterWs l = false := by
  have := p1AfterWs_stop l [] c h hc
  rwa [List.append_nil] at this

theorem p2AfterWs_stop_plain (l : List Char) (c : Char)
    (h : firstNonWs l = some c) (hc : c ≠ '-') : p2AfterWs l = false := by
  have := p2AfterWs_stop l [] c h hc
  rwa [List.append_nil] at this

theorem firstNonWs_ne_paren :
    ∀ (a : Char) (l : List Char), pySpace a = true → noTrig1 (a :: l) = true →
      ∀ c, firstNonWs l = some c → c ≠ '('
  | _, [], _, _, c, h => by simp [firstNonWs] at h
  | a, b :: rest, ha, ht, c, h => by
    by_cases hb : pySpace b = true
    · rw [firstNonWs, if_pos hb] at h
      exact firstNonWs_ne_paren b rest hb (noTrig1_tail ht) c h
    · rw [firstNonWs, if_neg hb] at h
      injection h with hbc
      rw [← hbc]
      exact noTrig1_pair ht ha

theorem firstNonWs_ne_dash :
    ∀ (a : Char) (l : List Char), pySpace a = true → noTrig2 (a :: l) = true →
      ∀ c, firstNonWs l = some c → c ≠ '-'
  | _, [], _, _, c, h => by simp [firstNonWs] at h
  | a, b :: rest, ha, ht, c, h => by
    by_cases hb : pySpace b = true
    · rw [firstNonWs, if_pos hb] at h
      exact firstNonWs_ne_dash b rest hb (noTrig2_tail ht) c h
    · rw [firstNonWs, if_neg hb] at h
      injection h with hbc
      rw [← hbc]
      exact noTrig2_pair ht ha

theorem matchesP1_of_noTrig1 {c : Char} {rest : List Char}
    (h : noTrig1 (c :: rest) = true) : matchesP1 (c :: rest) = false := by
  rw [matchesP1]
  by_cases hc : pySpace c = true
  · rw [hc, Bool.true_and]
    cases hf : firstNonWs rest with
    | none => exact p1AfterWs_allSpace rest ((firstNonWs_none_iff rest).mp hf)
    | some d =>
      exact p1AfterWs_stop_plain rest d hf (firstNonWs_ne_paren c rest hc h d hf)
  · simp [hc]

theorem matchesP2_of_noTrig2 {c : Char} {rest : List Char}
    (h : noTrig2 (c :: rest) = true) : matchesP2 (c :: rest) = false := by
  rw [matchesP2]
  by_cases hc : pySpace c = true
  · rw [hc, Bool.true_and]
    cases hf : firstNonWs rest with
    | none => exact p2AfterWs_allSpace rest ((firstNonWs_none_iff rest).mp hf)
    | some d =>
      exact p2AfterWs_stop_plain rest d hf (firstNonWs_ne_dash c rest hc h d hf)
  · simp [hc]

theorem sub1_fix : ∀ (l : List Char), noTrig1 l = true → sub1 l = l
  | [], _ => rfl
  | c :: rest, h => by
    rw [sub1, matchesP1_of_noTrig1 h]
    simp only [Bool.false_eq_true, if_false]
    rw [sub1_fix rest (noTrig1_tail h)]

theorem sub2_fix : ∀ (l : List Char), noTrig2 l = true → sub2 l = l
  | [], _ => rfl
  | c :: rest, h => by
    rw [sub2, matchesP2_of_noTrig2 h]
    simp only [Bool.false_eq_true, if_false]
    rw [sub2_fix rest (noTrig2_tail h)]

theorem sub3_fix : ∀ (l : List Char), endsWs l = false → sub3 l = l
  | [], _ => rfl
  | c :: rest, h => by
    have hall : allSpace (c :: rest) = false := by
      cases hA : allSpace (c :: rest) with
      | false => rfl
      | true =>
        rw [endsWs_of_allSpace hA (by simp)] at h
        cases h
    rw [sub3, hall]
    simp only [Bool.false_eq_true, if_false]
    cases hr : rest with
    | nil => rfl
    | cons d t =>
      rw [hr] at h
      rw [endsWs_cons (by simp)] at h
      rw [sub3_fix (d :: t) h]

theorem sub1_append :
    ∀ (base X : List Char), noTrig1 base = true → endsWs base = false →
      sub1 (base ++ X) = base ++ sub1 X
  | [], _, _, _ => rfl
  | c :: base', X, h1, h3 => by
    have hm : matchesP1 ((c :: base') ++ X) = false := by
      rw [List.cons_append, matchesP1]
      by_cases hc : pySpace c = true
      · rw [hc, Bool.true_and]
        cases hf : firstNonWs base' with
        | none =>
          have hall : allSpace base' = true := (firstNonWs_none_iff base').mp hf
          have : endsWs (c :: base') = true := by
            cases base' with
            | nil => rw [endsWs]; simp [List.getLast?]; exact hc
            | cons d t =>
              rw [endsWs_cons (by simp)]
              exact endsWs_of_allSpace hall (by simp)
          rw [this] at h3
          cases h3
        | some d =>
          exact p1AfterWs_stop base' X d hf
            (firstNonWs_ne_paren c base' hc h1 d hf)
      · simp [hc]
    rw [List.cons_append, sub1]
    rw [← List.cons_append, hm]
    simp only [Bool.false_eq_true, if_false]
    have h3' : endsWs base' = false := by
      cases base' with
      | nil => rfl
      | cons d t =>
        rw [endsWs_cons (by simp)] at h3
        exact h3
    rw [sub1_append base' X (noTrig1_tail h1) h3', List.cons_append]

theorem sub2_append :
    ∀ (base X : List Char), noTrig2 base = true → endsWs base = false →
      sub2 (base ++ X) = base ++ sub2 X
  | [], _, _, _ => rfl
  | c :: base', X, h1, h3 => by
    have hm : matchesP2 ((c :: base') ++ X) = false := by
      rw [List.cons_append, matchesP2]
      by_cases hc : pySpace c = true
      · rw [hc, Bool.true_and]
        cases hf : firstNonWs base' with
        | none =>
          have hall : allSpace base' = true := (firstNonWs_none_iff base').mp hf
          have : endsWs (c :: base') = true := by
            cases base' with
            | nil => rw [endsWs]; simp [List.getLast?]; exact hc
            | cons d t =>
              rw [endsWs_cons (by simp)]
              exact endsWs_of_allSpace hall (by simp)
          rw [this] at h3
          cases h3
        | some d =>
          exact p2AfterWs_stop base' X d hf
            (firstNonWs_ne_dash c base' hc h1 d hf)
      · simp [hc]
    rw [List.cons_append, sub2]
    rw [← List.cons_append, hm]
    simp only [Bool.false_eq_true, if_false]
    have h3' : endsWs base' = false := by
      cases base' with
      | nil => rfl
      | cons d t =>
        rw [endsWs_cons (by simp)] at h3
        exact h3
    rw [sub2_append base' X (noTrig2_tail h1) h3', List.cons_append]

theorem sub3_append :
    ∀ (base X : List Char), endsWs base = false →
      sub3 (base ++ X) = base ++ sub3 X
  | [], _, _ => rfl
  | c :: base', X, h3 => by
    have hall : allSpace ((c :: base') ++ X) = false := by
      cases hA : allSpace ((c :: base') ++ X) with
      | false => rfl
      | true =>
        rw [List.cons_append, allSpace, List.all_cons, List.all_append,
          Bool.and_eq_true, Bool.and_eq_true] at hA
        have hcb : allSpace (c :: base') = true := by
          rw [allSpace, List.all_cons, Bool.and_eq_true]
          exact ⟨hA.1, hA.2.1⟩
        rw [endsWs_of_allSpace hcb (by simp)] at h3
        cases h3
    rw [List.cons_append, sub3]
    rw [← List.cons_append, hall]
    simp only [Bool.false_eq_true, if_false]
    have h3' : endsWs base' = false := by
      cases base' with
      | nil => rfl
      | cons d t =>
        rw [endsWs_cons (by simp)] at h3
        exact h3
    rw [sub3_append base' X h3', List.cons_append]

theorem allSpace_no_char (l : List Char) (h : allSpace l = true) (d : Char)
    (hd : pySpace d = false) : ∀ c ∈ l, c ≠ d := by
  intro c hc heq
  rw [allSpace, List.all_eq_true] at h
  have := h c hc
  rw [heq, hd] at this
  cases this

theorem noTrig1_of_no_paren :
    ∀ (l : List Char), (∀ c ∈ l, c ≠ '(') → noTrig1 l = true
  | [], _ => rfl
  | [_], _ => rfl
  | a :: b :: rest, h => by
    rw [noTrig1, Bool.and_eq_true]
    constructor
    · have hb : (b == '(') = false := by simpa using h b (by simp)
      simp [hb]
    · exact noTrig1_of_no_paren (b :: rest)
        (fun c hc => h c (List.mem_cons_of_mem a hc))

theorem noTrig2_of_no_dash :
    ∀ (l : List Char), (∀ c ∈ l, c ≠ '-') → noTrig2 l = true
  | [], _ => rfl
  | [_], _ => rfl
  | a :: b :: rest, h => by
    rw [noTrig2, Bool.and_eq_true]
    constructor
    · have hb : (b == '-') = false := by simpa using h b (by simp)
      simp [hb]
    · exact noTrig2_of_no_dash (b :: rest)
        (fun c hc => h c (List.mem_cons_of_mem a hc))

theorem noTrig1_cons_build {a : Char} {l : List Char}
    (hhead : ∀ b, l.head? = some b → ¬(pySpace a = true ∧ b = '('))
    (ht : noTrig1 l = true) : noTrig1 (a :: l) = true := by
  cases l with
  | nil => rfl
  | cons b rest =>
    rw [noTrig1, Bool.and_eq_true]
    refine ⟨?_, ht⟩
    have hnb := hhead b rfl
    by_cases ha : pySpace a = true
    · have hb : b ≠ '(' := fun hb => hnb ⟨ha, hb⟩
      have hb' : (b == '(') = false := by simpa using hb
      simp [hb']
    · have ha' : pySpace a = false := by simpa using ha
      simp [ha']

theorem noTrig1_append_build :
    ∀ (l1 l2 : List Char), noTrig1 l1 = true → noTrig1 l2 = true →
      (∀ a b, l1.getLast? = some a → l2.head? = some b →
        ¬(pySpace a = true ∧ b = '(')) →
      noTrig1 (l1 ++ l2) = true
  | [], _, _, h2, _ => h2
  | [a], l2, _, h2, hb => by
    rw [List.cons_append, List.nil_append]
    exact noTrig1_cons_build (fun b hhead => hb a b rfl hhead) h2
  | a :: b :: t, l2, h1, h2, hb => by
    rw [noTrig1, Bool.and_eq_true] at h1
    rw [List.cons_append, List.cons_append, noTrig1, Bool.and_eq_true]
    constructor
    · exact h1.1
    · rw [← List.cons_append]
      exact noTrig1_append_build (b :: t) l2 h1.2 h2
        (fun a' b' hga hhb =>
          hb a' b' (by rw [List.getLast?_cons_cons]; exact hga) hhb)

theorem dropWhile_append_all {p : Char → Bool} :
    ∀ (l r : List Char), l.all p = true →
      (l ++ r).dropWhile p = r.dropWhile p
  | [], _, _ => rfl
  | c :: rest, r, h => by
    rw [List.all_cons, Bool.and_eq_true] at h
    rw [List.cons_append, List.dropWhile_cons, h.1]
    simp only [if_true]
    exact dropWhile_append_all rest r h.2

theorem getLast?_append_cons :
    ∀ (l : List Char) (c : Char) (m : List Char),
      (l ++ c :: m).getLast? = (c :: m).getLast?
  | [], _, _ => rfl
  | a :: rest, c, m => by
    rw [List.cons_append]
    cases hrm : rest ++ c :: m with
    | nil => exact absurd hrm (by simp)
    | cons x xs =>
      rw [List.getLast?_cons_cons, ← hrm]
      exact getLast?_append_cons rest c m

theorem getLast?_ne_newline :
    ∀ (l : List Char), noNewline l = true → ∀ d, l.getLast? = some d →
      d ≠ '\n'
  | [], _, d, h => by simp at h
  | c :: rest, hnn, d, h => by
    rw [noNewline, List.all_cons, Bool.and_eq_true] at hnn
    cases rest with
    | nil =>
      simp only [List.getLast?_singleton, Option.some.injEq] at h
      rw [← h]
      intro habs
      rw [habs] at hnn
      simp at hnn
    | cons b t =>
      rw [List.getLast?_cons_cons] at h
      exact getLast?_ne_newline (b :: t) hnn.2 d h

theorem matchesP1_full (w1 m w2 : List Char) (hw1 : allSpace w1 = true)
    (hw1n : w1 ≠ []) (hm : noNewline m = true) (hw2 : allSpace w2 = true) :
    matchesP1 (w1 ++ '(' :: (m ++ ')' :: w2)) = true := by
  cases w1 with
  | nil => exact absurd rfl hw1n
  | cons c w1' =>
    rw [allSpace, List.all_cons, Bool.and_eq_true] at hw1
    rw [List.cons_append, matchesP1, hw1.1, Bool.true_and,
      p1AfterWs_skip w1' _ hw1.2, p1AfterWs]
    simp only [beq_self_eq_true, if_true]
    rw [p1tail]
    have hrev : (m ++ ')' :: w2).reverse = w2.reverse ++ ')' :: m.reverse := by
      rw [List.reverse_append, List.reverse_cons, List.append_assoc]
      rfl
    rw [hrev, dropWhile_append_all _ _ (by rw [List.all_reverse]; exact hw2)]
    rw [List.dropWhile_cons]
    simp only [show pySpace ')' = false from rfl, Bool.false_eq_true, if_false]
    rw [noNewline, List.all_reverse]
    exact hm

theorem matchesP2_full (w1 m : List Char) (hw1 : allSpace w1 = true)
    (hw1n : w1 ≠ []) (hm : noNewline m = true) :
    matchesP2 (w1 ++ '-' :: m) = true := by
  cases w1 with
  | nil => exact absurd rfl hw1n
  | cons c w1' =>
    rw [allSpace, List.all_cons, Bool.and_eq_true] at hw1
    rw [List.cons_append, matchesP2, hw1.1, Bool.true_and,
      p2AfterWs_skip w1' _ hw1.2, p2AfterWs]
    simp only [beq_self_eq_true, if_true]
    rw [p2tail, hm]
    rfl

theorem sub1_suffix : ∀ (l : List Char), ∃ t, sub1 l ++ t = l
  | [] => ⟨[], rfl⟩
  | c :: rest => by
    by_cases hm : matchesP1 (c :: rest) = true
    · exact ⟨c :: rest, by rw [sub1, hm]; simp⟩
    · have hm' : matchesP1 (c :: rest) = false := by simpa using hm
      obtain ⟨t, ht⟩ := sub1_suffix rest
      refine ⟨t, ?_⟩
      rw [sub1, hm']
      simp only [Bool.false_eq_true, if_false, List.cons_append, ht]

theorem noNewline_append_left {a b : List Char}
    (h : noNewline (a ++ b) = true) : noNewline a = true := by
  rw [noNewline, List.all_append, Bool.and_eq_true] at h
  exact h.1

theorem noNewline_sub1 (l : List Char) (h : noNewline l = true) :
    noNewline (sub1 l) = true := by
  obtain ⟨t, ht⟩ := sub1_suffix l
  rw [← ht] at h
  exact noNewline_append_left h

theorem noTrig2_sub2 :
    ∀ (l : List Char), noNewline l = true → noTrig2 (sub2 l) = true
  | [], _ => rfl
  | c :: rest, hnn => by
    have hnr : noNewline rest = true := by
      rw [noNewline, List.all_cons, Bool.and_eq_true] at hnn
      exact hnn.2
    by_cases hm : matchesP2 (c :: rest) = true
    · rw [sub2, hm]
      simp only [if_true]
      have hkept : ((c :: rest).getLast? == some '\n') = false := by
        cases hg : (c :: rest).getLast? with
        | none => rfl
        | some d =>
          have := getLast?_ne_newline (c :: rest) hnn d hg
          simpa using this
      rw [hkept]
      simp only [Bool.false_eq_true, if_false]
      rfl
    · have hm' : matchesP2 (c :: rest) = false := by simpa using hm
      rw [sub2, hm']
      simp only [Bool.false_eq_true, if_false]
      cases hr : rest with
      | nil => rfl
      | cons d rest' =>
        rw [hr] at hnr hm'
        have hnr' : noNewline rest' = true := by
          rw [noNewline, List.all_cons, Bool.and_eq_true] at hnr
          exact hnr.2
        by_cases hmd : matchesP2 (d :: rest') = true
        · rw [sub2, hmd]
          simp only [if_true]
          have hkept : ((d :: rest').getLast? == some '\n') = false := by
            cases hg : (d :: rest').getLast? with
            | none => rfl
            | some e =>
              have := getLast?_ne_newline (d :: rest') hnr e hg
              simpa using this
          rw [hkept]
          simp only [Bool.false_eq_true, if_false]
          rfl
        · have hmd' : matchesP2 (d :: rest') = false := by simpa using hmd
          rw [sub2, hmd']
          simp only [Bool.false_eq_true, if_false]
          rw [noTrig2, Bool.and_eq_true]
          constructor
          · by_cases hc : pySpace c = true
            · by_cases hd : d = '-'
              · exfalso
                have hcontra : matchesP2 (c :: d :: rest') = true := by
                  rw [matchesP2, hc, Bool.true_and, hd, p2AfterWs]
                  simp only [beq_self_eq_true, if_true]
                  rw [p2tail, hnr']
                  rfl
                rw [hcontra] at hm'
                cases hm'
              · have hd' : (d == '-') = false := by simpa using hd
                simp [hd']
            · have hc' : pySpace c = false := by simpa using hc
              simp [hc']
          · have ihr := noTrig2_sub2 (d :: rest') hnr
            rw [sub2, hmd'] at ihr
            simpa using ihr

theorem noTrig2_sub3 :
    ∀ (l : List Char), noTrig2 l = true → noTrig2 (sub3 l) = true
  | [], _ => rfl
  | c :: rest, h => by
    by_cases hall : allSpace (c :: rest) = true
    · rw [sub3, hall]
      simp only [if_true]
      rfl
    · have hall' : allSpace (c :: rest) = false := by simpa using hall
      rw [sub3, hall']
      simp only [Bool.false_eq_true, if_false]
      cases hr : rest with
      | nil => rfl
      | cons d rest' =>
        rw [hr] at h
        by_cases hall2 : allSpace (d :: rest') = true
        · rw [sub3, hall2]
          simp only [if_true]
          rfl
        · have hall2' : allSpace (d :: rest') = false := by simpa using hall2
          rw [sub3, hall2']
          simp only [Bool.false_eq_true, if_false]
          rw [noTrig2, Bool.and_eq_true] at h ⊢
          constructor
          · exact h.1
          · have ihr := noTrig2_sub3 (d :: rest') (noTrig2_tail (by
              rw [noTrig2, Bool.and_eq_true]
              exact h))
            rw [sub3, hall2'] at ihr
            simpa using ihr

theorem endsWs_sub3 : ∀ (l : List Char), endsWs (sub3 l) = false
  | [] => rfl
  | c :: rest => by
    by_cases hall : allSpace (c :: rest) = true
    · rw [sub3, hall]
      simp only [if_true]
      rfl
    · have hall' : allSpace (c :: rest) = false := by simpa using hall
      rw [sub3, hall']
      simp only [Bool.false_eq_true, if_false]
      cases hs : sub3 rest with
      | nil =>
        have hcs : allSpace rest = true ∨ rest = [] := by
          cases rest with
          | nil => exact .inr rfl
          | cons d t =>
            left
            by_cases h2 : allSpace (d :: t) = true
            · exact h2
            · have h2' : allSpace (d :: t) = false := by simpa using h2
              rw [sub3, h2'] at hs
              simp at hs
        have hc : pySpace c = false := by
          cases hpc : pySpace c with
          | false => rfl
          | true =>
            exfalso
            have hctrue : allSpace (c :: rest) = true := by
              rcases hcs with h2 | h2
              · rw [allSpace, List.all_cons, Bool.and_eq_true]
                exact ⟨hpc, h2⟩
              · subst h2
                rw [allSpace, List.all_cons]
                simp [hpc]
            rw [hctrue] at hall'
            cases hall'
        rw [endsWs]
        simp [List.getLast?, hc]
      | cons x xs =>
        rw [endsWs_cons (by simp), ← hs]
        exact endsWs_sub3 rest

/-- Claim C9, amended statement: normalization is idempotent on every
newline-free raw string whose normalized form contains no whitespace
character immediately followed by an opening parenthesis; in general the
hyphen-suffix pass can expose a trailing parenthetical that a second
normalization would remove, so unrestricted idempotence fails. -/
theorem c9_amended (s : List Char) (h1 : noNewline s = true)
    (h2 : noTrig1 (normalizeName s) = true) :
    normalizeName (normalizeName s) = normalizeName s := by
  have hnn1 : noNewline (sub1 s) = true := noNewline_sub1 s h1
  have ht2 : noTrig2 (sub2 (sub1 s)) = true := noTrig2_sub2 (sub1 s) hnn1
  have ht2' : noTrig2 (normalizeName s) = true := noTrig2_sub3 _ ht2
  have ht3 : endsWs (normalizeName s) = false := endsWs_sub3 _
  show sub3 (sub2 (sub1 (normalizeName s))) = normalizeName s
  rw [sub1_fix _ h2, sub2_fix _ ht2', sub3_fix _ ht3]

/-- A concrete use of the C9 theorem: one more normalization of an already
normalized ordinary title is a no-op. -/
theorem c9_witness :
    noNewline "Software Project  (lec)".data = true ∧
    noTrig1 (normalizeName "Software Project  (lec)".data) = true ∧
    normalizeName (normalizeName "Software Project  (lec)".data) =
      normalizeName "Software Project  (lec)".data := by
  exact ⟨by decide, by decide,
    c9_amended "Software Project  (lec)".data (by decide) (by decide)⟩

/-- Claim C1, amended statement: canonicalization maps a title carrying ONE
trailing annotation to the same Subject instance as the bare title: a
whitespace-preceded parenthetical (followed only by whitespace), OR a
whitespace-preceded hyphen suffix, OR trailing whitespace, for every base
title that is in normal form in the sense that it has no
whitespace-parenthesis adjacency, no whitespace-hyphen adjacency and no
trailing whitespace.  Titles stacking a parenthetical AND a hyphen suffix
are not canonicalized to the bare title (the counterexample). -/
theorem c1_amended (base w1 m w2 w : List Char) (reg : Registry)
    (hb1 : noTrig1 base = true) (hb2 : noTrig2 base = true)
    (hb3 : endsWs base = false)
    (hw1 : allSpace w1 = true) (hw1n : w1 ≠ [])
    (hm : noNewline m = true) (hmT : noTrig1 m = true)
    (hw2 : allSpace w2 = true) (hw : allSpace w = true) :
    normalizeName (base ++ (w1 ++ '(' :: (m ++ ')' :: w2))) =
        normalizeName base ∧
    normalizeName (base ++ (w1 ++ '-' :: m)) = normalizeName base ∧
    normalizeName (base ++ w) = normalizeName base ∧
    Subject.from_str reg (base ++ (w1 ++ '-' :: m)) =
      Subject.from_str reg base := by
  have hbase : normalizeName base = base := by
    show sub3 (sub2 (sub1 base)) = base
    rw [sub1_fix base hb1, sub2_fix base hb2, sub3_fix base hb3]
  have hP : normalizeName (base ++ (w1 ++ '(' :: (m ++ ')' :: w2))) = base := by
    show sub3 (sub2 (sub1 _)) = base
    rw [sub1_append base _ hb1 hb3]
    have hXp : sub1 (w1 ++ '(' :: (m ++ ')' :: w2)) = [] := by
      cases w1 with
      | nil => exact absurd rfl hw1n
      | cons c w1' =>
        have hMf := matchesP1_full (c :: w1') m w2 hw1 hw1n hm hw2
        rw [List.cons_append] at hMf
        rw [List.cons_append, sub1, hMf]
        simp
    rw [hXp, List.append_nil, sub2_fix base hb2, sub3_fix base hb3]
  have hXs : noTrig1 (w1 ++ '-' :: m) = true := by
    refine noTrig1_append_build w1 ('-' :: m)
      (noTrig1_of_no_paren w1 (allSpace_no_char w1 hw1 '(' (by decide)))
      (noTrig1_cons_build (fun b _ hcontra => absurd hcontra.1 (by decide)) hmT)
      ?_
    intro a b _ hhb hcontra
    injection hhb with hb
    rw [← hb] at hcontra
    exact absurd hcontra.2 (by decide)
  have hSsub2val : sub2 (w1 ++ '-' :: m) = [] := by
    cases w1 with
    | nil => exact absurd rfl hw1n
    | cons c w1' =>
      have hMf := matchesP2_full (c :: w1') m hw1 hw1n hm
      rw [List.cons_append] at hMf
      rw [List.cons_append, sub2, hMf]
      simp only [if_true]
      have hlast : ((c :: (w1' ++ '-' :: m)).getLast? == some '\n') = false := by
        have h1 : (c :: (w1' ++ '-' :: m)).getLast? = ('-' :: m).getLast? :=
          getLast?_append_cons (c :: w1') '-' m
        rw [h1]
        cases hg : ('-' :: m).getLast? with
        | none => rfl
        | some d =>
          have hnnd : noNewline ('-' :: m) = true := by
            rw [noNewline, List.all_cons,
              show (('-' : Char) != '\n') = true from rfl, Bool.true_and]
            rw [noNewline] at hm
            exact hm
          have := getLast?_ne_newline ('-' :: m) hnnd d hg
          simpa using this
      rw [hlast]
      simp
  have hS : normalizeName (base ++ (w1 ++ '-' :: m)) = base := by
    show sub3 (sub2 (sub1 _)) = base
    rw [sub1_append base _ hb1 hb3, sub1_fix _ hXs,
      sub2_append base _ hb2 hb3, hSsub2val, List.append_nil,
      sub3_fix base hb3]
  have hW : normalizeName (base ++ w) = base := by
    show sub3 (sub2 (sub1 _)) = base
    rw [sub1_append base w hb1 hb3,
      sub1_fix w (noTrig1_of_no_paren w (allSpace_no_char w hw '(' (by decide))),
      sub2_append base w hb2 hb3,
      sub2_fix w (noTrig2_of_no_dash w (allSpace_no_char w hw '-' (by decide))),
      sub3_append base w hb3]
    have hsw : sub3 w = [] := by
      cases w with
      | nil => rfl
      | cons c w' =>
        rw [sub3, hw]
        simp
    rw [hsw, List.append_nil]
  refine ⟨by rw [hP, hbase], by rw [hS, hbase], by rw [hW, hbase], ?_⟩
  simp only [Subject.from_str, hS, hbase]

/-- A concrete use of the C1 theorem: the three annotated variants of the
title Software Project all canonicalize to the Subject of the bare title. -/
theorem c1_witness :
    noTrig1 "Software Project".data = true ∧
    noTrig2 "Software Project".data = true ∧
    endsWs "Software Project".data = false ∧
    allSpace "  ".data = true ∧ "  ".data ≠ ([] : List Char) ∧
    noNewline "lec".data = true ∧ noTrig1 "lec".data = true ∧
    allSpace " ".data = true ∧ allSpace "   ".data = true ∧
    (normalizeName ("Software Project".data ++
          ("  ".data ++ '(' :: ("lec".data ++ ')' :: " ".data))) =
        normalizeName "Software Project".data ∧
      normalizeName ("Software Project".data ++ ("  ".data ++ '-' :: "lec".data)) =
        normalizeName "Software Project".data ∧
      normalizeName ("Software Project".data ++ "   ".data) =
        normalizeName "Software Project".data ∧
      Subject.from_str [] ("Software Project".data ++ ("  ".data ++ '-' :: "lec".data)) =
        Subject.from_str [] "Software Project".data) := by
  refine ⟨by decide, by decide, by decide, by decide, by decide, by decide,
    by decide, by decide, by decide, ?_⟩
  exact c1_amended "Software Project".data "  ".data "lec".data " ".data
    "   ".data [] (by decide) (by decide) (by decide) (by decide) (by decide)
    (by decide) (by decide) (by decide) (by decide)
